import Mathlib

/-!
# tinycv.h: the bit-packed boolean vector codec, `coin` and `view`

A shallow embedding of `src/tinycv.h` (namespace `tiny`).

* A stream is the list of octets still to be read (or written so far).
* `uint8_t` and `uint32_t` arithmetic is done on `Nat` with an explicit `% 2 ^ w`; `size_t` and
  `uint64_t` values count entries of one vector and are plain `Nat`.
* Assertions are enabled. An `assert` failure, the exception of `std::map::at`, an exhausted
  input stream and an out-of-bounds `operator[]` (undefined behaviour in C++) end an operation
  with a `Violation` and without a state.
* A loop with an index runs on fuel, the size of the vector it walks, which it never uses up.
* `COMPACTSIZE`/`ReadCompactSize`, `tx`, `txout::provably_unspendable` and `tx::IsCoinBase`
  live in headers that are not part of this file; they enter as parameters or as plain fields.
* `txidpf` expands to nothing (`debug_txid` is not defined), and `printf` lines are returned as
  a list of `Diagnostic`s.
-/

namespace tiny

/-- The octets of a serialization stream, in order. -/
abbrev Stream := List Nat

/-- How an operation can end without a result. -/
inductive Violation where
  /-- The input stream ended before a read completed. -/
  | EndOfStream
  /-- Reading the compact size failed. -/
  | BadCompactSize
  /-- Index outside the vector handed to `operator[]`: undefined behaviour in the source, which
  performs no range check; the embedding ends the call here and gives it no result. -/
  | OutOfBounds
  /-- Failure of `assert(!spent[n])`. -/
  | AlreadySpent
  /-- Exception thrown by `coin_map.at`. -/
  | MissingCoin
  /-- Failure of `assert(dupe_coinbase_tx(x->hash) || coin_map.count(x->hash) == 0)`. -/
  | DuplicateKey
  /-- Failure of `assert(coin_map.count(txid) == 1)`. -/
  | NotFound
  deriving DecidableEq, Repr

deriving instance DecidableEq for Except

/-- The compact-size primitives of the serialization library (`COMPACTSIZE(len)` on a write
stream and `::ReadCompactSize(s)`), which `tinycv.h` only calls. -/
structure CompactSizeCodec where
  /-- Octets written for a length. -/
  WriteCompactSize : Nat → Stream
  /-- Length read from the front of a stream, with the octets that follow it. -/
  ReadCompactSize : Stream → Option (Nat × Stream)

/-- Modelled from the spec: the compact-size integer ("a variable-length encoding of an unsigned
integer using fewer bytes for smaller values") is written as one octet below 253 and otherwise as
a marker octet 253, 254 or 255 followed by 2, 4 or 8 little-endian octets. This is the list of
the `k` low octets of `n`, least significant first. -/
def littleEndian : Nat → Nat → Stream
  | 0, _ => []
  | k + 1, n => n % 256 :: littleEndian k (n / 256)

/-- Modelled from the spec: value of a little-endian octet string. -/
def ofLittleEndian : Stream → Nat
  | [] => 0
  | b :: bs => b % 256 + 256 * ofLittleEndian bs

/-- Modelled from the spec: writer of the compact-size integer. -/
def writeCompactSize (n : Nat) : Stream :=
  if n < 253 then [n]
  else if n < 2 ^ 16 then 253 :: littleEndian 2 n
  else if n < 2 ^ 32 then 254 :: littleEndian 4 n
  else 255 :: littleEndian 8 n

/-- Modelled from the spec: reader of the compact-size integer. -/
def readCompactSize : Stream → Option (Nat × Stream)
  | [] => none
  | b :: s =>
    let width := if b % 256 < 253 then 0 else if b % 256 = 253 then 2
      else if b % 256 = 254 then 4 else 8
    if width = 0 then some (b % 256, s)
    else if s.length < width then none
    else some (ofLittleEndian (s.take width), s.drop width)

/-- Modelled from the spec: the compact-size integer as a codec. -/
def bitcoinCompactSize : CompactSizeCodec :=
  ⟨writeCompactSize, readCompactSize⟩

/-- A `bool` promoted to an integer. -/
def bit (b : Bool) : Nat := if b then 1 else 0

/-- Entry `v[i]` of a `std::vector<bool>` (only evaluated for `i < v.size()`). -/
def vget (v : List Bool) (i : Nat) : Bool := v.getD i false

/-- The `while (i + 7 < v.size())` loop of `SerializeBoolVector`: state `(i, s)`. -/
def SerializeBoolVector.fullBytes (v : List Bool) : Nat → Nat → Stream → Nat × Stream
  | 0, i, s => (i, s)
  | fuel + 1, i, s =>
    if i + 7 < v.length then
      let b := (bit (vget v i)
        ||| (bit (vget v (i + 1)) <<< 1)
        ||| (bit (vget v (i + 2)) <<< 2)
        ||| (bit (vget v (i + 3)) <<< 3)
        ||| (bit (vget v (i + 4)) <<< 4)
        ||| (bit (vget v (i + 5)) <<< 5)
        ||| (bit (vget v (i + 6)) <<< 6)
        ||| (bit (vget v (i + 7)) <<< 7)) % 256
      SerializeBoolVector.fullBytes v fuel (i + 8) (s ++ [b])
    else (i, s)

/-- The `for (size_t j = i + 1; j < v.size(); ++j) b |= (v[j] << (j-i));` loop: state `(j, b)`,
result `b`. -/
def SerializeBoolVector.tailByte (v : List Bool) (i : Nat) : Nat → Nat → Nat → Nat
  | 0, _, b => b
  | fuel + 1, j, b =>
    if j < v.length then
      SerializeBoolVector.tailByte v i fuel (j + 1) ((b ||| (bit (vget v j) <<< (j - i))) % 256)
    else b

/-- `SerializeBoolVector(s, v)`: the stream after the call. Each loop runs at most `v.size()`
times, which is the fuel it is given. -/
def SerializeBoolVector (cs : CompactSizeCodec) (s : Stream) (v : List Bool) : Stream :=
  let len := v.length
  let s := s ++ cs.WriteCompactSize len
  let (i, s) := SerializeBoolVector.fullBytes v v.length 0 s
  if i < v.length then
    let b := bit (vget v i)
    let b := SerializeBoolVector.tailByte v i v.length (i + 1) b
    s ++ [b]
  else s

/-- State of the loops of `DeserializeBoolVector`: the stream, the vector, `i` and `trues`. -/
structure DeserializeBoolVector.State where
  /-- Octets not yet read. -/
  s : Stream
  /-- The vector being filled. -/
  v : List Bool
  /-- Next index to fill. -/
  i : Nat
  /-- Number of true entries stored so far. -/
  trues : Nat
  deriving DecidableEq, Repr

/-- One statement `trues += (v[i++] = e);` where `e` converts to the boolean `x`. -/
def DeserializeBoolVector.store (st : DeserializeBoolVector.State) (x : Bool) :
    DeserializeBoolVector.State :=
  { st with v := st.v.set st.i x, i := st.i + 1, trues := st.trues + bit x }

/-- The `while (i + 7 < v.size())` loop of `DeserializeBoolVector`. -/
def DeserializeBoolVector.fullBytes :
    Nat → DeserializeBoolVector.State → Except Violation DeserializeBoolVector.State
  | 0, st => .ok st
  | fuel + 1, st =>
    if st.i + 7 < st.v.length then
      match st.s with
      | [] => .error .EndOfStream
      | c :: s =>
        let b := c % 256
        let st := { st with s := s }
        let st := DeserializeBoolVector.store st (b &&& 1 != 0)
        let b := b >>> 1
        let st := DeserializeBoolVector.store st (b &&& 1 != 0)
        let b := b >>> 1
        let st := DeserializeBoolVector.store st (b &&& 1 != 0)
        let b := b >>> 1
        let st := DeserializeBoolVector.store st (b &&& 1 != 0)
        let b := b >>> 1
        let st := DeserializeBoolVector.store st (b &&& 1 != 0)
        let b := b >>> 1
        let st := DeserializeBoolVector.store st (b &&& 1 != 0)
        let b := b >>> 1
        let st := DeserializeBoolVector.store st (b &&& 1 != 0)
        let b := b >>> 1
        let st := DeserializeBoolVector.store st (b != 0)
        DeserializeBoolVector.fullBytes fuel st
    else .ok st

/-- The `for (; i < v.size(); ++i) { trues += (v[i] = b & 1); b >>= 1; }` loop; `b` is the
octet read just before it. -/
def DeserializeBoolVector.tailBits :
    Nat → Nat → DeserializeBoolVector.State → DeserializeBoolVector.State
  | 0, _, st => st
  | fuel + 1, b, st =>
    if st.i < st.v.length then
      DeserializeBoolVector.tailBits fuel (b >>> 1) (DeserializeBoolVector.store st (b &&& 1 != 0))
    else st

/-- `v.resize(len)`: keeps the first `len` entries and pads with `false`. -/
def resize (v : List Bool) (len : Nat) : List Bool :=
  v.take len ++ List.replicate (len - v.length) false

/-- `DeserializeBoolVector(s, v)`: the stream after the call, the vector, and the returned
`len - trues`. Each loop runs at most `len` times, which is the fuel it is given; `trues` counts
entries of a vector of size `len`, so the `uint64_t` subtraction does not wrap
(`DeserializeBoolVector.trues_le`). -/
def DeserializeBoolVector (cs : CompactSizeCodec) (s : Stream) (v : List Bool) :
    Except Violation (Stream × List Bool × Nat) :=
  match cs.ReadCompactSize s with
  | none => .error .BadCompactSize
  | some (len, s) =>
    let st : DeserializeBoolVector.State := ⟨s, resize v len, 0, 0⟩
    match DeserializeBoolVector.fullBytes len st with
    | .error e => .error e
    | .ok st =>
      if st.i < st.v.length then
        match st.s with
        | [] => .error .EndOfStream
        | c :: s =>
          let st := DeserializeBoolVector.tailBits len (c % 256) { st with s := s }
          .ok (st.s, st.v, len - st.trues)
      else .ok (st.s, st.v, len - st.trues)

/-- A 256-bit identifier (`uint256`), ordered as a number. -/
abbrev uint256 := Nat

/-- `outpoint`: the referenced transaction identifier and the output index (`uint32_t n`). -/
structure outpoint where
  hash : uint256
  n : Nat
  deriving DecidableEq, Repr

/-- `txin`, of which `tinycv.h` reads `prevout`. -/
structure txin where
  prevout : outpoint
  deriving DecidableEq, Repr

/-- `txout`, of which `tinycv.h` calls `provably_unspendable()`; the result of that call is the
field. -/
structure txout where
  provably_unspendable : Bool
  deriving DecidableEq, Repr

/-- `tx`, of which `tinycv.h` reads `hash`, `vin`, `vout` and calls `IsCoinBase()`; the result of
that call is the field. -/
structure tx where
  hash : uint256
  vin : List txin
  vout : List txout
  IsCoinBase : Bool
  deriving DecidableEq, Repr

/-- Conversion of a `uint32_t` to the `int` parameter of `spend_exhausts`. -/
def int_of_uint32 (n : Nat) : Int :=
  if n % 2 ^ 32 < 2 ^ 31 then ((n % 2 ^ 32 : Nat) : Int) else ((n % 2 ^ 32 : Nat) : Int) - 2 ^ 32

/-- `struct coin`: the transaction handle `x`, the `spent` flags and `uint32_t spendable`. -/
structure coin where
  x : tx
  spent : List Bool
  spendable : Nat
  deriving DecidableEq, Repr

/-- Body of the constructor loop for index `i`:
`spent[i] = x->vout[i].provably_unspendable(); spendable += !spent[i];`. -/
def coin.construct.body (c : coin) (i : Nat) : coin :=
  let spent := c.spent.set i (c.x.vout.getD i ⟨false⟩).provably_unspendable
  { c with spent := spent, spendable := (c.spendable + bit (!vget spent i)) % 2 ^ 32 }

/-- The constructor `coin::coin(std::shared_ptr<tx> x_in)`. -/
def coin.construct (x_in : tx) : coin :=
  let c : coin := { x := x_in, spent := resize [] x_in.vout.length, spendable := 0 }
  (List.range x_in.vout.length).foldl coin.construct.body c

/-- `coin::spend_exhausts(int n)`: the coin after the call and the returned flag. The source
indexes `spent[n]` without a range check, so a call with `n` outside `spent` is undefined
behaviour; the embedding ends such a call with `OutOfBounds` and says nothing about what a
compiled program does there. The invariant theorems C6 and C13 carry the range of the index
as an explicit hypothesis. -/
def coin.spend_exhausts (c : coin) (n : Int) : Except Violation (coin × Bool) :=
  if n < 0 ∨ (c.spent.length : Int) ≤ n then .error .OutOfBounds
  else if vget c.spent n.toNat then .error .AlreadySpent
  else
    let spendable := (c.spendable + 2 ^ 32 - 1) % 2 ^ 32
    .ok ({ c with spent := c.spent.set n.toNat true, spendable := spendable }, spendable == 0)

/-- `std::map<uint256,coin>`: the entries in ascending key order. -/
abbrev coin_map_t := List (uint256 × coin)

/-- `std::map::find`: the coin stored under a key. -/
def coin_map_t.find : coin_map_t → uint256 → Option coin
  | [], _ => none
  | (k, c) :: m, key => if k = key then some c else coin_map_t.find m key

/-- `std::map::count`. -/
def coin_map_t.count (m : coin_map_t) (key : uint256) : Nat :=
  if (coin_map_t.find m key).isSome then 1 else 0

/-- `std::map::at`, which throws when the key is absent. -/
def coin_map_t.at (m : coin_map_t) (key : uint256) : Except Violation coin :=
  match coin_map_t.find m key with
  | some c => .ok c
  | none => .error .MissingCoin

/-- `std::map::erase(key)`. -/
def coin_map_t.erase (m : coin_map_t) (key : uint256) : coin_map_t :=
  m.filter (fun e => e.1 != key)

/-- `m[key] = c`: replaces the coin under `key`, or inserts it at its place in key order. -/
def coin_map_t.assign : coin_map_t → uint256 → coin → coin_map_t
  | [], key, c => [(key, c)]
  | (k, c0) :: m, key, c =>
    if key < k then (key, c) :: (k, c0) :: m
    else if key = k then (key, c) :: m
    else (k, c0) :: coin_map_t.assign m key c

/-- A line written by `printf`. -/
inductive Diagnostic where
  /-- `"other is missing txid %s\n"`. -/
  | other_is_missing (txid : uint256)
  /-- `"I am missing txid %s\n"`. -/
  | I_am_missing (txid : uint256)
  /-- `"MISSING TXID %s\n"`. -/
  | MISSING_TXID (txid : uint256)
  deriving DecidableEq, Repr

/-- `class view`. -/
structure view where
  coin_map : coin_map_t
  deriving DecidableEq, Repr

/-- `view::dupe_coinbase_tx`. -/
def view.dupe_coinbase_tx (hash : uint256) : Bool :=
  hash = 0xd5d27987d2a3dfc724e359870c6644b40e497bdc0589a033220fe15429d88599
    || hash = 0xe3bf3d07d4b0375638d5f1db5255fe07ba2c4cb067cd81b84ee974b6585fb468

/-- The loop `for (const auto& in : x->vin)` of `view::insert` ("spend inputs"); `c` is a
reference into the map, so the spend is stored back under the same key. -/
def view.insert.spend_inputs : List txin → coin_map_t → Except Violation coin_map_t
  | [], m => .ok m
  | i :: vin, m =>
    match coin_map_t.at m i.prevout.hash with
    | .error e => .error e
    | .ok c =>
      match c.spend_exhausts (int_of_uint32 i.prevout.n) with
      | .error e => .error e
      | .ok (c, exhausted) =>
        let m := coin_map_t.assign m i.prevout.hash c
        if exhausted then
          view.insert.spend_inputs vin (coin_map_t.erase m i.prevout.hash)
        else view.insert.spend_inputs vin m

/-- The part of `view::insert` after the inputs are spent ("add new outputs"). -/
def view.insert.add_outputs (m : coin_map_t) (x : tx) : Except Violation view :=
  let c := coin.construct x
  if c.spendable = 0 then .ok ⟨m⟩
  else if !(view.dupe_coinbase_tx x.hash || coin_map_t.count m x.hash == 0) then
    .error .DuplicateKey
  else .ok ⟨coin_map_t.assign m x.hash c⟩

/-- `view::insert`. -/
def view.insert (v : view) (x : tx) : Except Violation view :=
  if !x.IsCoinBase then
    match view.insert.spend_inputs x.vin v.coin_map with
    | .error e => .error e
    | .ok m => view.insert.add_outputs m x
  else view.insert.add_outputs v.coin_map x

/-- `view::get`: the lines printed and the transaction returned. -/
def view.get (v : view) (txid : uint256) : List Diagnostic × Except Violation tx :=
  let out := if coin_map_t.count v.coin_map txid = 0 then [Diagnostic.MISSING_TXID txid] else []
  if coin_map_t.count v.coin_map txid = 1 then
    match coin_map_t.at v.coin_map txid with
    | .ok c => (out, .ok c.x)
    | .error e => (out, .error e)
  else (out, .error .NotFound)

/-- One loop of `view::operator==` over the entries of one map: for each key that the other map
does not hold exactly once, a line is printed and `equal` is cleared. The state is the lines
printed so far and `equal`. -/
def view.operator_eq.loop (line : uint256 → Diagnostic) (other : coin_map_t) :
    coin_map_t → List Diagnostic × Bool → List Diagnostic × Bool
  | [], st => st
  | (k, _) :: m, (out, equal) =>
    if coin_map_t.count other k != 1 then
      view.operator_eq.loop line other m (out ++ [line k], false)
    else view.operator_eq.loop line other m (out, equal)

/-- `view::operator==`: the lines printed and the returned flag. -/
def view.operator_eq (v other : view) : List Diagnostic × Bool :=
  let st := view.operator_eq.loop Diagnostic.other_is_missing other.coin_map v.coin_map ([], true)
  view.operator_eq.loop Diagnostic.I_am_missing v.coin_map other.coin_map st

/-- The primitives of the serialization library that `READWRITE` reaches from `tinycv.h`: the
compact size, `int`, `uint256` and `tx`. None of them reads or writes `coin_view_version`. -/
structure Primitives where
  /-- Compact size. -/
  cs : CompactSizeCodec
  /-- Octets written for an `int`. -/
  write_int : Int → Stream
  /-- An `int` read from the front of a stream. -/
  read_int : Stream → Option (Int × Stream)
  /-- Octets written for a `uint256`. -/
  write_uint256 : uint256 → Stream
  /-- A `uint256` read from the front of a stream. -/
  read_uint256 : Stream → Option (uint256 × Stream)
  /-- Octets written for a `tx`. -/
  write_tx : tx → Stream
  /-- A `tx` read from the front of a stream. -/
  read_tx : Stream → Option (tx × Stream)

/-- `coin::SerializationOp` when writing: `READWRITE(*x.get()); SerializeBoolVector(s, spent);`. -/
def coin.Serialize (P : Primitives) (s : Stream) (c : coin) : Stream :=
  let s := s ++ P.write_tx c.x
  SerializeBoolVector P.cs s c.spent

/-- `coin::SerializationOp` when reading, into a coin whose flags are `spent`:
`x = std::make_shared<tx>(); READWRITE(*x.get()); spendable = DeserializeBoolVector(s, spent);`
(the `uint64_t` result is stored in the `uint32_t` field). -/
def coin.Unserialize (P : Primitives) (spent : List Bool) (s : Stream) :
    Except Violation (coin × Stream) :=
  match P.read_tx s with
  | none => .error .EndOfStream
  | some (x, s) =>
    match DeserializeBoolVector P.cs s spent with
    | .error e => .error e
    | .ok (s, spent, falses) => .ok ({ x := x, spent := spent, spendable := falses % 2 ^ 32 }, s)

/-- Modelled from the spec: `READWRITE(coin_map)` when writing, which is the serialization
library applied to a `std::map` ("the full key→Coin mapping (in key order)", "ordered sequence
of (key, Coin) pairs, by ascending key"): the number of entries as a compact size, then each key
followed by its coin. -/
def coin_map_t.Serialize (P : Primitives) (s : Stream) (m : coin_map_t) : Stream :=
  m.foldl (fun s e => coin.Serialize P (s ++ P.write_uint256 e.1) e.2)
    (s ++ P.cs.WriteCompactSize m.length)

/-- Modelled from the spec: the loop of `READWRITE(coin_map)` when reading, which reads `n` pairs
into default-constructed coins and inserts each under its key unless the key is already there. -/
def coin_map_t.Unserialize.loop (P : Primitives) :
    Nat → coin_map_t → Stream → Except Violation (coin_map_t × Stream)
  | 0, m, s => .ok (m, s)
  | n + 1, m, s =>
    match P.read_uint256 s with
    | none => .error .EndOfStream
    | some (k, s) =>
      match coin.Unserialize P [] s with
      | .error e => .error e
      | .ok (c, s) =>
        coin_map_t.Unserialize.loop P n
          (if coin_map_t.count m k = 0 then coin_map_t.assign m k c else m) s

/-- Modelled from the spec: `READWRITE(coin_map)` when reading: the map is cleared, the number of
entries is read as a compact size, then the pairs. -/
def coin_map_t.Unserialize (P : Primitives) (s : Stream) :
    Except Violation (coin_map_t × Stream) :=
  match P.cs.ReadCompactSize s with
  | none => .error .BadCompactSize
  | some (n, s) => coin_map_t.Unserialize.loop P n [] s

/-- `view::SerializationOp` when writing: the stream and the process-wide `coin_view_version`
after the call, from the stream, `coin_view_version` and the view before it. -/
def view.Serialize (P : Primitives) (coin_view_version : Int) (s : Stream) (v : view) :
    Stream × Int :=
  let s := s ++ P.write_int coin_view_version
  let s := coin_map_t.Serialize P s v.coin_map
  (s, 2)

/-- `view::SerializationOp` when reading: `coin_view_version` after the call, and the view read
with the stream left, or the exception of the stream. An exception leaves `coin_view_version` as
it was when thrown. -/
def view.Unserialize (P : Primitives) (coin_view_version : Int) (s : Stream) :
    Int × Except Violation (view × Stream) :=
  match P.read_int s with
  | none => (coin_view_version, .error .EndOfStream)
  | some (w, s) =>
    match coin_map_t.Unserialize P s with
    | .error e => (w, .error e)
    | .ok (m, s) => (2, .ok (⟨m⟩, s))

/-- Value of the eight entries `v[i] .. v[i+7]` read as bits, least significant first; entries
past the end count as zero. -/
def byteOf (v : List Bool) (i : Nat) : Nat :=
  bit (vget v i) + 2 * bit (vget v (i + 1)) + 4 * bit (vget v (i + 2))
    + 8 * bit (vget v (i + 3)) + 16 * bit (vget v (i + 4)) + 32 * bit (vget v (i + 5))
    + 64 * bit (vget v (i + 6)) + 128 * bit (vget v (i + 7))

/-- The packed octets of `v`: one per group of eight entries. -/
def payload (v : List Bool) : Stream :=
  (List.range ((v.length + 7) / 8)).map (fun j => byteOf v (8 * j))


/-- Bit `j % 8` of octet `j / 8` of a stream: the value decoded into entry `j`. -/
def bitAt (s : Stream) (j : Nat) : Bool := (s.getD (j / 8) 0).testBit (j % 8)

/-- What the loops of `DeserializeBoolVector` maintain while filling a vector of size `n` with
the values `f 0, f 1, ...`. -/
structure DeserializeBoolVector.Inv (f : Nat → Bool) (n : Nat)
    (st : DeserializeBoolVector.State) : Prop where
  len : st.v.length = n
  le : st.i ≤ n
  filled : ∀ j, j < st.i → vget st.v j = f j
  trues : st.trues = (List.range st.i).countP f

/-- A finite sequence of `spend_exhausts` calls on one coin, each of which must succeed. -/
def coin.spend_all (c : coin) : List Int → Except Violation coin
  | [] => .ok c
  | n :: ns =>
    match c.spend_exhausts n with
    | .error e => .error e
    | .ok (c, _) => coin.spend_all c ns

/-- Number of outputs of a transaction that are not provably unspendable. -/
def tx.spendable_outputs (x : tx) : Nat :=
  x.vout.countP (fun o => !o.provably_unspendable)

/-- A transaction with `2 ^ 32` outputs, none of them provably unspendable. -/
def wideTx : tx :=
  { hash := 1, vin := [], vout := List.replicate (2 ^ 32) ⟨false⟩, IsCoinBase := true }

/-- The coin invariant of the data model: `spendable` (a `uint32_t`) is the number of false
entries of `spent`. -/
def coin.invariant (c : coin) : Prop :=
  c.spendable = c.spent.count false ∧ c.spendable < 2 ^ 32

/-- A finite sequence of `insert` calls on one view, each of which must succeed. -/
def view.insert_all (v : view) : List tx → Except Violation view
  | [] => .ok v
  | x :: xs =>
    match v.insert x with
    | .error e => .error e
    | .ok v => view.insert_all v xs

/-- The keys of a map, in the order of its entries. -/
def coin_map_t.keys (m : coin_map_t) : List uint256 := m.map Prod.fst

/-- The representation invariant of `std::map`: the keys are strictly ascending (so each key
occurs once). -/
def coin_map_t.ordered (m : coin_map_t) : Prop := (coin_map_t.keys m).Pairwise (fun a b => a < b)

/-- Modelled from the spec: an `int` as four little-endian octets, two's complement. -/
def write_int32 (n : Int) : Stream := littleEndian 4 (n % 2 ^ 32).toNat

/-- Modelled from the spec: reading an `int` of four little-endian octets. -/
def read_int32 (s : Stream) : Option (Int × Stream) :=
  if s.length < 4 then none
  else
    let u := ofLittleEndian (s.take 4)
    some (if u < 2 ^ 31 then (u : Int) else (u : Int) - 2 ^ 32, s.drop 4)

/-- Modelled from the spec: a `uint256` as 32 little-endian octets. -/
def write_uint256 (k : uint256) : Stream := littleEndian 32 k

/-- Modelled from the spec: reading a `uint256` of 32 little-endian octets. -/
def read_uint256 (s : Stream) : Option (uint256 × Stream) :=
  if s.length < 32 then none else some (ofLittleEndian (s.take 32), s.drop 32)

/-- Modelled from the spec: the "raw structured write" of a transaction, here the identifier and
the coinbase flag only. The format of `tinytx.h` is not part of this file; this stand-in serves to
run the definitions on concrete streams. -/
def write_tx_demo (x : tx) : Stream := littleEndian 32 x.hash ++ [bit x.IsCoinBase]

/-- Modelled from the spec: the reader matching `write_tx_demo`; inputs and outputs are not
carried. -/
def read_tx_demo (s : Stream) : Option (tx × Stream) :=
  if s.length < 33 then none
  else some (⟨ofLittleEndian (s.take 32), [], [], s.getD 32 0 % 2 = 1⟩, s.drop 33)

/-- Modelled from the spec: an instance of the serialization primitives. -/
def demoPrimitives : Primitives :=
  ⟨bitcoinCompactSize, write_int32, read_int32, write_uint256, read_uint256, write_tx_demo,
    read_tx_demo⟩

/-- The first of the two identifiers of `dupe_coinbase_tx` (block 91842). -/
def dupe_hash_91842 : uint256 :=
  0xd5d27987d2a3dfc724e359870c6644b40e497bdc0589a033220fe15429d88599

/-- A coinbase transaction with the identifier of block 91842 and `2 ^ 32` outputs, none of them
provably unspendable. -/
def wideDupeTx : tx :=
  { hash := dupe_hash_91842, vin := [], vout := List.replicate (2 ^ 32) ⟨false⟩,
    IsCoinBase := true }

/-- The state of a prevout once an input of the running `insert` has spent it: the entry it
references is gone, or it is there with that output marked spent. -/
def view.insert.consumed (p : outpoint) (m : coin_map_t) : Prop :=
  coin_map_t.find m p.hash = none
    ∨ ∃ c, coin_map_t.find m p.hash = some c ∧ 0 ≤ int_of_uint32 p.n
        ∧ (int_of_uint32 p.n).toNat < c.spent.length
        ∧ vget c.spent (int_of_uint32 p.n).toNat = true

/-- The keys of `m` that are not keys of `other`, in the order of `m`. -/
def coin_map_t.keys_missing_in (m other : coin_map_t) : List uint256 :=
  (coin_map_t.keys m).filter (fun k => decide (k ∉ coin_map_t.keys other))

theorem littleEndian_length (k n : Nat) : (littleEndian k n).length = k := by
  induction k generalizing n with
  | zero => rfl
  | succ k ih => simp [littleEndian, ih]

theorem ofLittleEndian_littleEndian (k n : Nat) :
    ofLittleEndian (littleEndian k n) = n % 256 ^ k := by
  induction k generalizing n with
  | zero => simp [littleEndian, ofLittleEndian, Nat.mod_one]
  | succ k ih =>
    simp only [littleEndian, ofLittleEndian, ih, Nat.mod_mod]
    rw [Nat.pow_succ', Nat.mod_mul]

theorem readCompactSize_wide (b k n : Nat) (r : Stream)
    (hk : (if b % 256 < 253 then 0 else if b % 256 = 253 then 2
      else if b % 256 = 254 then 4 else 8) = k) (hk0 : k ≠ 0) (hn : n < 256 ^ k) :
    readCompactSize (b :: (littleEndian k n ++ r)) = some (n, r) := by
  unfold readCompactSize
  simp only [hk, if_neg hk0]
  have hl : ¬ ((littleEndian k n ++ r).length < k) := by
    rw [List.length_append, littleEndian_length]
    omega
  rw [if_neg hl, List.take_left' (littleEndian_length k n),
    List.drop_left' (littleEndian_length k n), ofLittleEndian_littleEndian,
    Nat.mod_eq_of_lt hn]

/-- The compact-size codec of the serialization library reads back every `uint64_t` length. -/
theorem bitcoinCompactSize_round_trip (n : Nat) (hn : n < 2 ^ 64) (r : Stream) :
    bitcoinCompactSize.ReadCompactSize (bitcoinCompactSize.WriteCompactSize n ++ r)
      = some (n, r) := by
  show readCompactSize (writeCompactSize n ++ r) = some (n, r)
  unfold writeCompactSize
  by_cases h1 : n < 253
  · rw [if_pos h1]
    have hm : n % 256 = n := by omega
    simp [readCompactSize, hm, h1]
  · rw [if_neg h1]
    by_cases h2 : n < 2 ^ 16
    · rw [if_pos h2]
      exact readCompactSize_wide 253 2 n r (by decide) (by decide)
        (by omega)
    · rw [if_neg h2]
      by_cases h3 : n < 2 ^ 32
      · rw [if_pos h3]
        exact readCompactSize_wide 254 4 n r (by decide) (by decide)
          (by omega)
      · rw [if_neg h3]
        exact readCompactSize_wide 255 8 n r (by decide) (by decide)
          (by omega)

theorem bit_lt_two (b : Bool) : bit b < 2 := by cases b <;> decide

theorem testBit_bit (b : Bool) (k : Nat) : (bit b).testBit k = (decide (k = 0) && b) := by
  cases b
  · simp [bit]
  · cases k with
    | zero => simp [bit]
    | succ k => simp [bit, Nat.testBit_succ]

theorem vget_of_le (v : List Bool) (i : Nat) (h : v.length ≤ i) : vget v i = false := by
  simp [vget, List.getD_eq_getElem?_getD, List.getElem?_eq_none h]

theorem byte_eq (b0 b1 b2 b3 b4 b5 b6 b7 : Bool) :
    (bit b0 ||| (bit b1 <<< 1) ||| (bit b2 <<< 2) ||| (bit b3 <<< 3) ||| (bit b4 <<< 4)
      ||| (bit b5 <<< 5) ||| (bit b6 <<< 6) ||| (bit b7 <<< 7)) % 256
    = bit b0 + 2 * bit b1 + 4 * bit b2 + 8 * bit b3 + 16 * bit b4 + 32 * bit b5
      + 64 * bit b6 + 128 * bit b7 := by
  revert b0 b1 b2 b3 b4 b5 b6 b7
  decide

theorem byte_testBit (b0 b1 b2 b3 b4 b5 b6 b7 : Bool) (k : Nat) :
    (bit b0 + 2 * bit b1 + 4 * bit b2 + 8 * bit b3 + 16 * bit b4 + 32 * bit b5
      + 64 * bit b6 + 128 * bit b7).testBit k
    = [b0, b1, b2, b3, b4, b5, b6, b7].getD k false := by
  by_cases hk : k < 8
  · interval_cases k <;> revert b0 b1 b2 b3 b4 b5 b6 b7 <;> decide
  · have h1 : bit b0 + 2 * bit b1 + 4 * bit b2 + 8 * bit b3 + 16 * bit b4 + 32 * bit b5
      + 64 * bit b6 + 128 * bit b7 < 2 ^ k := by
      have := bit_lt_two b0; have := bit_lt_two b1; have := bit_lt_two b2
      have := bit_lt_two b3; have := bit_lt_two b4; have := bit_lt_two b5
      have := bit_lt_two b6; have := bit_lt_two b7
      have : 2 ^ 8 ≤ 2 ^ k := Nat.pow_le_pow_right (by decide) (by omega)
      omega
    rw [Nat.testBit_lt_two_pow h1]
    simp [List.getD_eq_getElem?_getD, List.getElem?_eq_none (show [b0, b1, b2, b3, b4, b5, b6, b7].length ≤ k by simp; omega)]

theorem byteOf_lt (v : List Bool) (i : Nat) : byteOf v i < 256 := by
  unfold byteOf
  have := bit_lt_two (vget v i); have := bit_lt_two (vget v (i + 1))
  have := bit_lt_two (vget v (i + 2)); have := bit_lt_two (vget v (i + 3))
  have := bit_lt_two (vget v (i + 4)); have := bit_lt_two (vget v (i + 5))
  have := bit_lt_two (vget v (i + 6)); have := bit_lt_two (vget v (i + 7))
  omega

theorem byteOf_testBit (v : List Bool) (i k : Nat) :
    (byteOf v i).testBit k = (decide (k < 8) && vget v (i + k)) := by
  unfold byteOf
  rw [byte_testBit]
  by_cases hk : k < 8
  · interval_cases k <;> simp
  · simp [hk, List.getD_eq_getElem?_getD]
    rw [List.getElem?_eq_none (by simp; omega)]
    rfl

theorem SerializeBoolVector.fullBytes_eq (v : List Bool) :
    ∀ (fuel i : Nat) (s : Stream), v.length ≤ i + 7 + 8 * fuel →
      SerializeBoolVector.fullBytes v fuel i s
        = (i + 8 * ((v.length - i) / 8),
            s ++ (List.range ((v.length - i) / 8)).map (fun j => byteOf v (i + 8 * j))) := by
  intro fuel
  induction fuel with
  | zero =>
    intro i s h
    have h0 : (v.length - i) / 8 = 0 := by omega
    simp [SerializeBoolVector.fullBytes, h0]
  | succ fuel ih =>
    intro i s h
    unfold SerializeBoolVector.fullBytes
    by_cases hc : i + 7 < v.length
    · have hm : (v.length - i) / 8 = (v.length - (i + 8)) / 8 + 1 := by omega
      simp only [hc, if_true]
      rw [ih (i + 8) _ (by omega), hm, byte_eq, List.range_succ_eq_map, List.map_cons,
        List.map_map]
      have hf : ((fun j => byteOf v (i + 8 * j)) ∘ Nat.succ)
          = fun j => byteOf v (i + 8 + 8 * j) := by
        funext j
        simp only [Function.comp, Nat.succ_eq_add_one]
        congr 1
        omega
      rw [hf]
      simp only [List.append_assoc, List.singleton_append, Nat.mul_zero, Nat.add_zero]
      congr 1
      omega
    · have h0 : (v.length - i) / 8 = 0 := by omega
      simp [hc, h0]

theorem SerializeBoolVector.tailByte_testBit (v : List Bool) (i : Nat) :
    ∀ (fuel j b : Nat), i < j → j ≤ v.length → v.length ≤ i + 7 → v.length ≤ j + fuel →
      (∀ k, b.testBit k = (decide (k < j - i) && vget v (i + k))) →
      ∀ k, (SerializeBoolVector.tailByte v i fuel j b).testBit k
        = (decide (k < v.length - i) && vget v (i + k)) := by
  intro fuel
  induction fuel with
  | zero =>
    intro j b hij hj h7 hf hb k
    have : j = v.length := by omega
    subst this
    simpa [SerializeBoolVector.tailByte] using hb k
  | succ fuel ih =>
    intro j b hij hj h7 hf hb k
    unfold SerializeBoolVector.tailByte
    by_cases hc : j < v.length
    · simp only [hc, if_true]
      apply ih (j + 1) _ (by omega) (by omega) h7 (by omega)
      intro k
      have e256 : (256 : Nat) = 2 ^ 8 := rfl
      rw [e256, Nat.testBit_mod_two_pow, Nat.testBit_or, hb, Nat.testBit_shiftLeft, testBit_bit]
      rcases Nat.lt_trichotomy k (j - i) with h1 | h1 | h1
      · have h2 : k < 8 := by omega
        have h3 : k < j + 1 - i := by omega
        have h4 : ¬ (k ≥ j - i) := by omega
        simp [h1, h2, h3, h4]
      · have h2 : k < 8 := by omega
        have h3 : k < j + 1 - i := by omega
        have h5 : i + k = j := by omega
        have h6 : k - (j - i) = 0 := by omega
        have h7 : ¬ (k < j - i) := by omega
        have h8 : k ≥ j - i := by omega
        rw [h5, h6]
        simp [h2, h3, h7, h8]
      · have h3 : ¬ (k < j + 1 - i) := by omega
        have h4 : ¬ (k < j - i) := by omega
        have h5 : ¬ (k - (j - i) = 0) := by omega
        simp [h3, h4, h5]
    · have : j = v.length := by omega
      subst this
      simpa [hc] using hb k

theorem SerializeBoolVector.tailByte_eq (v : List Bool) (i : Nat) (hi : i < v.length)
    (h7 : v.length ≤ i + 7) :
    SerializeBoolVector.tailByte v i v.length (i + 1) (bit (vget v i)) = byteOf v i := by
  apply Nat.eq_of_testBit_eq
  intro k
  rw [SerializeBoolVector.tailByte_testBit v i v.length (i + 1) _ (by omega) (by omega) h7
    (by omega), byteOf_testBit]
  · by_cases hk : k < v.length - i
    · have : k < 8 := by omega
      simp [*]
    · rw [vget_of_le v (i + k) (by omega)]
      simp
  · intro k
    rw [testBit_bit]
    cases k with
    | zero => simp
    | succ k => simp

theorem SerializeBoolVector_eq (cs : CompactSizeCodec) (s : Stream) (v : List Bool) :
    SerializeBoolVector cs s v = s ++ cs.WriteCompactSize v.length ++ payload v := by
  unfold SerializeBoolVector
  simp only [SerializeBoolVector.fullBytes_eq v v.length 0 _ (by omega), Nat.sub_zero,
    Nat.zero_add]
  by_cases hc : 8 * (v.length / 8) < v.length
  · have hm : (v.length + 7) / 8 = v.length / 8 + 1 := by omega
    simp only [hc, if_true]
    rw [SerializeBoolVector.tailByte_eq v _ hc (by omega), payload, hm, List.range_succ,
      List.map_append]
    simp
  · have hm : (v.length + 7) / 8 = v.length / 8 := by omega
    simp only [hc, if_false]
    rw [payload, hm]

theorem vget_set (v : List Bool) (i j : Nat) (x : Bool) (hi : i < v.length) :
    vget (v.set i x) j = if j = i then x else vget v j := by
  unfold vget
  rw [List.getD_eq_getElem?_getD, List.getD_eq_getElem?_getD, List.getElem?_set]
  by_cases h : i = j
  · subst h
    simp [hi]
  · have h2 : ¬ (j = i) := fun e => h e.symm
    simp [h, h2]

theorem DeserializeBoolVector.Inv.store {f : Nat → Bool} {n : Nat}
    {st : DeserializeBoolVector.State} (I : DeserializeBoolVector.Inv f n st) (x : Bool)
    (hi : st.i < n) (hx : x = f st.i) :
    DeserializeBoolVector.Inv f n (DeserializeBoolVector.store st x) := by
  refine ⟨?_, ?_, ?_, ?_⟩
  · simp [DeserializeBoolVector.store, I.len]
  · simp only [DeserializeBoolVector.store]
    omega
  · intro j hj
    simp only [DeserializeBoolVector.store] at hj ⊢
    rw [vget_set _ _ _ _ (by rw [I.len]; exact hi)]
    by_cases h : j = st.i
    · simp [h, hx]
    · simp only [h, if_false]
      exact I.filled j (by omega)
  · simp only [DeserializeBoolVector.store]
    rw [List.range_succ, List.countP_append, I.trues, hx]
    cases h : f st.i <;> simp [bit, List.countP_cons, h]

theorem octet_bit0 (c : Nat) : (c % 256 &&& 1 != 0) = c.testBit 0 := by
  rw [Nat.testBit_to_div_mod, Nat.and_one_is_mod]
  by_cases h : c % 2 = 1
  · have : c % 256 % 2 = 1 := by omega
    simp [h, this]
  · have : c % 256 % 2 = 0 := by omega
    simp [h, this]

theorem shift_bit0 (b : Nat) : (b &&& 1 != 0) = b.testBit 0 := by
  rw [Nat.testBit_to_div_mod, Nat.and_one_is_mod]
  by_cases h : b % 2 = 1
  · simp [h]
  · have : b % 2 = 0 := by omega
    simp [this]

theorem octet_testBit (c k : Nat) (hk : k < 8) : (c % 256).testBit k = c.testBit k := by
  have e256 : (256 : Nat) = 2 ^ 8 := rfl
  rw [e256, Nat.testBit_mod_two_pow]
  simp [hk]

theorem octet_top (c : Nat) :
    (((((((((c % 256) >>> 1) >>> 1) >>> 1) >>> 1) >>> 1) >>> 1) >>> 1) != 0) = c.testBit 7 := by
  rw [Nat.testBit_to_div_mod]
  simp only [Nat.shiftRight_eq_div_pow, Nat.pow_one]
  by_cases h : c / 2 ^ 7 % 2 = 1
  · have h2 : c % 256 / 2 / 2 / 2 / 2 / 2 / 2 / 2 ≠ 0 := by omega
    simp only [h, decide_True, bne_iff_ne, ne_eq]
    exact h2
  · have h2 : c % 256 / 2 / 2 / 2 / 2 / 2 / 2 / 2 = 0 := by omega
    simp only [h, decide_False, h2]
    rfl

theorem octet_mid (c k : Nat) (hk : k < 8) : (((c % 256) >>> k) &&& 1 != 0) = c.testBit k := by
  rw [shift_bit0, Nat.testBit_shiftRight, Nat.add_zero, octet_testBit c k hk]

theorem DeserializeBoolVector.Inv.store8 {f : Nat → Bool} {n : Nat}
    {st : DeserializeBoolVector.State}
    (I : DeserializeBoolVector.Inv f n st) (hi : st.i + 7 < n) (x0 x1 x2 x3 x4 x5 x6 x7 : Bool)
    (h0 : x0 = f st.i) (h1 : x1 = f (st.i + 1)) (h2 : x2 = f (st.i + 2))
    (h3 : x3 = f (st.i + 3)) (h4 : x4 = f (st.i + 4)) (h5 : x5 = f (st.i + 5))
    (h6 : x6 = f (st.i + 6)) (h7 : x7 = f (st.i + 7)) :
    DeserializeBoolVector.Inv f n
      (DeserializeBoolVector.store (DeserializeBoolVector.store (DeserializeBoolVector.store
        (DeserializeBoolVector.store (DeserializeBoolVector.store (DeserializeBoolVector.store
          (DeserializeBoolVector.store (DeserializeBoolVector.store st x0) x1) x2) x3) x4) x5)
            x6) x7) := by
  have I0 := I.store x0 (by omega) h0
  have I1 := I0.store x1 (by simp only [DeserializeBoolVector.store]; omega)
    (by simpa only [DeserializeBoolVector.store] using h1)
  have I2 := I1.store x2 (by simp only [DeserializeBoolVector.store]; omega)
    (by simpa only [DeserializeBoolVector.store] using h2)
  have I3 := I2.store x3 (by simp only [DeserializeBoolVector.store]; omega)
    (by simpa only [DeserializeBoolVector.store] using h3)
  have I4 := I3.store x4 (by simp only [DeserializeBoolVector.store]; omega)
    (by simpa only [DeserializeBoolVector.store] using h4)
  have I5 := I4.store x5 (by simp only [DeserializeBoolVector.store]; omega)
    (by simpa only [DeserializeBoolVector.store] using h5)
  have I6 := I5.store x6 (by simp only [DeserializeBoolVector.store]; omega)
    (by simpa only [DeserializeBoolVector.store] using h6)
  exact I6.store x7 (by simp only [DeserializeBoolVector.store]; omega)
    (by simpa only [DeserializeBoolVector.store] using h7)

theorem bitAt_of_octet (s0 : Stream) (i k : Nat) (h8 : 8 ∣ i) (hk : k < 8)
    (hs : i / 8 < s0.length) : bitAt s0 (i + k) = (s0.get ⟨i / 8, hs⟩).testBit k := by
  unfold bitAt
  have e1 : (i + k) / 8 = i / 8 := by omega
  have e2 : (i + k) % 8 = k := by omega
  rw [e1, e2, List.getD_eq_getElem?_getD, List.getElem?_eq_getElem hs]
  rfl

open DeserializeBoolVector in
theorem DeserializeBoolVector.fullBytes_ok (s0 : Stream) (n : Nat)
    (hs0 : (n + 7) / 8 ≤ s0.length) :
    ∀ (fuel : Nat) (st : State), Inv (bitAt s0) n st → 8 ∣ st.i →
      st.s = s0.drop (st.i / 8) → n ≤ st.i + 7 + 8 * fuel →
      ∃ st', fullBytes fuel st = .ok st' ∧ Inv (bitAt s0) n st' ∧ st'.i = 8 * (n / 8)
        ∧ st'.s = s0.drop (n / 8) := by
  intro fuel
  induction fuel with
  | zero =>
    intro st I h8 hs hf
    refine ⟨st, rfl, I, ?_, ?_⟩
    · have := I.le
      omega
    · rw [hs]
      congr 1
      have := I.le
      omega
  | succ fuel ih =>
    intro st I h8 hs hf
    unfold fullBytes
    by_cases hc : st.i + 7 < st.v.length
    · have hn : st.i + 7 < n := by rw [← I.len]; exact hc
      have hlt : st.i / 8 < s0.length := by omega
      have hs2 : st.s = s0.get ⟨st.i / 8, hlt⟩ :: s0.drop (st.i / 8 + 1) := by
        rw [hs]
        exact List.drop_eq_getElem_cons hlt
      simp only [hc, if_true, hs2]
      apply ih
      · have I' : Inv (bitAt s0) n { st with s := s0.drop (st.i / 8 + 1) } :=
          ⟨I.len, I.le, I.filled, I.trues⟩
        apply I'.store8 hn
        · rw [octet_bit0]
          simpa using (bitAt_of_octet s0 st.i 0 h8 (by omega) hlt).symm
        · have := octet_mid (s0.get ⟨st.i / 8, hlt⟩) 1 (by omega)
          rw [this]
          exact (bitAt_of_octet s0 st.i 1 h8 (by omega) hlt).symm
        · have := octet_mid (s0.get ⟨st.i / 8, hlt⟩) 2 (by omega)
          rw [Nat.shiftRight_add _ 1 1] at this
          rw [this]
          exact (bitAt_of_octet s0 st.i 2 h8 (by omega) hlt).symm
        · have := octet_mid (s0.get ⟨st.i / 8, hlt⟩) 3 (by omega)
          rw [Nat.shiftRight_add _ 2 1, Nat.shiftRight_add _ 1 1] at this
          rw [this]
          exact (bitAt_of_octet s0 st.i 3 h8 (by omega) hlt).symm
        · have := octet_mid (s0.get ⟨st.i / 8, hlt⟩) 4 (by omega)
          rw [Nat.shiftRight_add _ 3 1, Nat.shiftRight_add _ 2 1, Nat.shiftRight_add _ 1 1] at this
          rw [this]
          exact (bitAt_of_octet s0 st.i 4 h8 (by omega) hlt).symm
        · have := octet_mid (s0.get ⟨st.i / 8, hlt⟩) 5 (by omega)
          rw [Nat.shiftRight_add _ 4 1, Nat.shiftRight_add _ 3 1, Nat.shiftRight_add _ 2 1,
            Nat.shiftRight_add _ 1 1] at this
          rw [this]
          exact (bitAt_of_octet s0 st.i 5 h8 (by omega) hlt).symm
        · have := octet_mid (s0.get ⟨st.i / 8, hlt⟩) 6 (by omega)
          rw [Nat.shiftRight_add _ 5 1, Nat.shiftRight_add _ 4 1, Nat.shiftRight_add _ 3 1,
            Nat.shiftRight_add _ 2 1, Nat.shiftRight_add _ 1 1] at this
          rw [this]
          exact (bitAt_of_octet s0 st.i 6 h8 (by omega) hlt).symm
        · rw [octet_top]
          exact (bitAt_of_octet s0 st.i 7 h8 (by omega) hlt).symm
      · simp only [store]
        omega
      · simp only [store]
        congr 1
        omega
      · simp only [store]
        omega
    · have hn : ¬ (st.i + 7 < n) := by rw [← I.len]; exact hc
      simp only [hc, if_false]
      refine ⟨st, rfl, I, ?_, ?_⟩
      · have := I.le
        omega
      · rw [hs]
        congr 1
        have := I.le
        omega

theorem DeserializeBoolVector.tailBits_ok (f : Nat → Bool) (n : Nat) :
    ∀ (fuel b : Nat) (st : DeserializeBoolVector.State), DeserializeBoolVector.Inv f n st →
      n ≤ st.i + fuel → (∀ j, st.i ≤ j → j < n → b.testBit (j - st.i) = f j) →
      DeserializeBoolVector.Inv f n (DeserializeBoolVector.tailBits fuel b st)
        ∧ (DeserializeBoolVector.tailBits fuel b st).i = n
        ∧ (DeserializeBoolVector.tailBits fuel b st).s = st.s := by
  intro fuel
  induction fuel with
  | zero =>
    intro b st I hf _
    refine ⟨I, ?_, rfl⟩
    have := I.le
    simp only [DeserializeBoolVector.tailBits]
    omega
  | succ fuel ih =>
    intro b st I hf hb
    unfold DeserializeBoolVector.tailBits
    by_cases hc : st.i < st.v.length
    · have hn : st.i < n := by rw [← I.len]; exact hc
      simp only [hc, if_true]
      have hx : (b &&& 1 != 0) = f st.i := by
        rw [shift_bit0]
        simpa using hb st.i (Nat.le_refl _) hn
      have I1 := I.store (b &&& 1 != 0) hn hx
      have := ih (b >>> 1) _ I1 (by simp only [DeserializeBoolVector.store]; omega) (by
        intro j hj1 hj2
        simp only [DeserializeBoolVector.store] at hj1 ⊢
        rw [Nat.testBit_shiftRight, ← hb j (by omega) hj2]
        congr 1
        omega)
      simpa only [DeserializeBoolVector.store] using this
    · have hn : ¬ (st.i < n) := by rw [← I.len]; exact hc
      rw [if_neg hc]
      refine ⟨I, ?_, rfl⟩
      have := I.le
      omega

theorem DeserializeBoolVector.Inv.init (f : Nat → Bool) (s : Stream) (v : List Bool) (n : Nat) :
    DeserializeBoolVector.Inv f n ⟨s, resize v n, 0, 0⟩ := by
  refine ⟨?_, Nat.zero_le _, ?_, ?_⟩
  · simp only [resize, List.length_append, List.length_take, List.length_replicate]
    omega
  · intro j hj
    exact absurd hj (Nat.not_lt_zero _)
  · simp

theorem DeserializeBoolVector.Inv.done {f : Nat → Bool} {n : Nat}
    {st : DeserializeBoolVector.State} (I : DeserializeBoolVector.Inv f n st) (hi : st.i = n) :
    st.v = (List.range n).map f ∧ st.trues = ((List.range n).map f).count true := by
  constructor
  · apply List.ext_getElem
    · simp [I.len]
    · intro j h1 h2
      have hj : j < st.i := by simpa [hi] using h2
      have := I.filled j hj
      simp only [vget, List.getD_eq_getElem?_getD, List.getElem?_eq_getElem h1,
        Option.getD_some] at this
      simp [this]
  · rw [I.trues, hi, List.count, List.countP_map]
    congr 1
    funext j
    simp

/-- The vector and the number of true entries that `DeserializeBoolVector` produces from a stream
whose compact size is `n` and whose remaining octets are `s0`. -/
theorem DeserializeBoolVector_eq (cs : CompactSizeCodec) (s s0 : Stream) (v0 : List Bool)
    (n : Nat) (hread : cs.ReadCompactSize s = some (n, s0)) (hs0 : (n + 7) / 8 ≤ s0.length) :
    DeserializeBoolVector cs s v0
      = .ok (s0.drop ((n + 7) / 8), (List.range n).map (bitAt s0),
          n - ((List.range n).map (bitAt s0)).count true) := by
  unfold DeserializeBoolVector
  simp only [hread]
  obtain ⟨st, h1, I, hi, hs⟩ := DeserializeBoolVector.fullBytes_ok s0 n hs0 n
    ⟨s0, resize v0 n, 0, 0⟩ (DeserializeBoolVector.Inv.init _ _ _ _) (Nat.dvd_zero 8)
    (by simp) (by simp only []; omega)
  simp only [h1]
  by_cases hc : st.i < st.v.length
  · have hn : 8 * (n / 8) < n := by rw [← hi, ← I.len]; exact hc
    have hlt : n / 8 < s0.length := by omega
    have hs2 : st.s = s0.get ⟨n / 8, hlt⟩ :: s0.drop (n / 8 + 1) := by
      rw [hs]
      exact List.drop_eq_getElem_cons hlt
    simp only [hc, if_true, hs2]
    obtain ⟨I2, hi2, hs3⟩ := DeserializeBoolVector.tailBits_ok (bitAt s0) n n
      (s0.get ⟨n / 8, hlt⟩ % 256) { st with s := s0.drop (n / 8 + 1) }
      ⟨I.len, I.le, I.filled, I.trues⟩ (by simp only []; omega) (by
        intro j hj1 hj2
        simp only [] at hj1 ⊢
        have e1 : j / 8 = n / 8 := by omega
        have e2 : j % 8 = j - st.i := by omega
        rw [octet_testBit _ _ (by omega), bitAt, e1, e2, List.getD_eq_getElem?_getD,
          List.getElem?_eq_getElem hlt]
        rfl)
    obtain ⟨hv, ht⟩ := I2.done hi2
    rw [hv, ht, hs3]
    have e : (n + 7) / 8 = n / 8 + 1 := by omega
    rw [e]
  · have hn : ¬ (8 * (n / 8) < n) := by rw [← hi, ← I.len]; exact hc
    simp only [hc, if_false]
    have hin : st.i = n := by omega
    obtain ⟨hv, ht⟩ := I.done hin
    rw [hv, ht, hs]
    have e : (n + 7) / 8 = n / 8 := by omega
    rw [e]

theorem DeserializeBoolVector.trues_le {f : Nat → Bool} {n : Nat}
    {st : DeserializeBoolVector.State} (I : DeserializeBoolVector.Inv f n st) : st.trues ≤ n := by
  rw [I.trues]
  have h : List.countP f (List.range st.i) ≤ (List.range st.i).length :=
    List.countP_le_length f
  rw [List.length_range] at h
  exact Nat.le_trans h I.le

theorem payload_length (v : List Bool) : (payload v).length = (v.length + 7) / 8 := by
  simp [payload]

theorem payload_getD (v : List Bool) (i : Nat) (hi : i < (v.length + 7) / 8) :
    (payload v).getD i 0 = byteOf v (8 * i) := by
  rw [List.getD_eq_getElem?_getD, List.getElem?_eq_getElem (by rw [payload_length]; exact hi)]
  simp [payload]

theorem payload_testBit (v : List Bool) (i k : Nat) (hi : i < (v.length + 7) / 8) (hk : k < 8) :
    ((payload v).getD i 0).testBit k = vget v (8 * i + k) := by
  rw [payload_getD v i hi, byteOf_testBit]
  simp [hk]

theorem bitAt_payload (v : List Bool) (rest : Stream) (j : Nat) (hj : j < v.length) :
    bitAt (payload v ++ rest) j = vget v j := by
  have h1 : j / 8 < (v.length + 7) / 8 := by omega
  have h2 : j / 8 < (payload v).length := by rw [payload_length]; exact h1
  have h3 : (payload v ++ rest).getD (j / 8) 0 = (payload v).getD (j / 8) 0 := by
    rw [List.getD_eq_getElem?_getD, List.getD_eq_getElem?_getD, List.getElem?_append_left h2]
  rw [bitAt, h3, payload_testBit v _ _ h1 (Nat.mod_lt _ (by decide))]
  congr 1
  omega

theorem map_vget_range (v : List Bool) : (List.range v.length).map (vget v) = v := by
  apply List.ext_getElem
  · simp
  · intro j h1 h2
    simp [vget, List.getD_eq_getElem?_getD, List.getElem?_eq_getElem h2]

theorem map_bitAt_payload (v : List Bool) (rest : Stream) :
    (List.range v.length).map (bitAt (payload v ++ rest)) = v := by
  conv_rhs => rw [← map_vget_range v]
  apply List.map_congr_left
  intro j hj
  exact bitAt_payload v rest j (List.mem_range.mp hj)

theorem length_sub_count_true (v : List Bool) : v.length - v.count true = v.count false := by
  have := List.count_false_add_count_true v
  omega

theorem getD_map_range (f : Nat → Bool) (n j : Nat) (hj : j < n) :
    ((List.range n).map f).getD j false = f j := by
  rw [List.getD_eq_getElem?_getD, List.getElem?_eq_getElem (by simpa using hj)]
  simp

theorem vget_eq_true_iff (l : List Bool) (j : Nat) : vget l j = true ↔ l[j]? = some true := by
  unfold vget
  rw [List.getD_eq_getElem?_getD]
  cases h : l[j]? with
  | none => simp
  | some b => simp

theorem getElem?_eq_some_false_iff (l : List Bool) (j : Nat) :
    l[j]? = some false ↔ j < l.length ∧ vget l j = false := by
  unfold vget
  rw [List.getD_eq_getElem?_getD]
  constructor
  · intro h
    have hj : j < l.length := by
      by_contra hc
      rw [List.getElem?_eq_none (by omega)] at h
      exact Option.noConfusion h
    exact ⟨hj, by simp [h]⟩
  · rintro ⟨hj, h⟩
    rw [List.getElem?_eq_getElem hj] at h ⊢
    simpa using h

theorem map_getD_range {α β : Type} (l : List α) (d : α) (f : α → β) :
    (List.range l.length).map (fun j => f (l.getD j d)) = l.map f := by
  apply List.ext_getElem
  · simp
  · intro j h1 h2
    have hj : j < l.length := by simpa using h2
    simp [List.getD_eq_getElem?_getD, List.getElem?_eq_getElem hj]

/-- What the constructor loop maintains after `k` iterations. -/
theorem coin.construct.loop (x : tx) (k : Nat) (hk : k ≤ x.vout.length) :
    let c := (List.range k).foldl coin.construct.body
      { x := x, spent := resize [] x.vout.length, spendable := 0 }
    c.x = x ∧ c.spent.length = x.vout.length
      ∧ (∀ j, j < k → vget c.spent j = (x.vout.getD j ⟨false⟩).provably_unspendable)
      ∧ c.spendable
        = ((List.range k).countP (fun j => !(x.vout.getD j ⟨false⟩).provably_unspendable))
            % 2 ^ 32 := by
  induction k with
  | zero =>
    refine ⟨rfl, ?_, ?_, ?_⟩
    · simp [resize]
    · intro j hj
      exact absurd hj (Nat.not_lt_zero _)
    · simp
  | succ k ih =>
    obtain ⟨hx, hl, hf, hs⟩ := ih (by omega)
    simp only [List.range_succ, List.foldl_append, List.foldl_cons, List.foldl_nil]
    generalize (List.range k).foldl coin.construct.body
      { x := x, spent := resize [] x.vout.length, spendable := 0 } = c at hx hl hf hs
    have hk2 : k < c.spent.length := by omega
    refine ⟨hx, ?_, ?_, ?_⟩
    · simp [coin.construct.body, hl]
    · intro j hj
      simp only [coin.construct.body]
      rw [vget_set _ _ _ _ hk2, hx]
      by_cases h : j = k
      · simp [h]
      · simp only [h, if_false]
        exact hf j (by omega)
    · simp only [coin.construct.body]
      rw [vget_set _ _ _ _ hk2, hs, hx, List.countP_append]
      simp only [if_true, List.countP_cons, List.countP_nil]
      cases (x.vout.getD k ⟨false⟩).provably_unspendable <;> simp [bit]

theorem coin.construct_eq (x : tx) :
    coin.construct x
      = { x := x, spent := x.vout.map (fun o => o.provably_unspendable),
          spendable := x.spendable_outputs % 2 ^ 32 } := by
  obtain ⟨hx, hl, hf, hs⟩ := coin.construct.loop x x.vout.length (Nat.le_refl _)
  have e : coin.construct x = (List.range x.vout.length).foldl coin.construct.body
      { x := x, spent := resize [] x.vout.length, spendable := 0 } := rfl
  rw [← e] at hx hl hf hs
  have h1 : (coin.construct x).spent = x.vout.map (fun o => o.provably_unspendable) := by
    rw [← map_getD_range x.vout ⟨false⟩ (fun o => o.provably_unspendable)]
    apply List.ext_getElem
    · simp [hl]
    · intro j h1 h2
      have hj : j < x.vout.length := by simpa using h2
      have := hf j hj
      simp only [vget, List.getD_eq_getElem?_getD, List.getElem?_eq_getElem h1,
        Option.getD_some] at this
      simp [this, List.getD_eq_getElem?_getD]
  have h2 : (coin.construct x).spendable = x.spendable_outputs % 2 ^ 32 := by
    rw [hs, tx.spendable_outputs]
    congr 1
    have h3 := List.countP_map (fun o : txout => !o.provably_unspendable)
      (fun j => x.vout.getD j ⟨false⟩) (List.range x.vout.length)
    have h4 : (List.range x.vout.length).map (fun j => x.vout.getD j ⟨false⟩) = x.vout := by
      have := map_getD_range x.vout ⟨false⟩ id
      simpa using this
    rw [h4] at h3
    rw [h3]
    rfl
  cases hc : coin.construct x with
  | mk cx cs cp =>
    rw [hc] at hx h1 h2
    simp only at hx h1 h2
    rw [hx, h1, h2]

/-- What a successful `spend_exhausts` did. -/
theorem coin.spend_exhausts_ok {c c' : coin} {n : Int} {e : Bool}
    (h : c.spend_exhausts n = .ok (c', e)) :
    0 ≤ n ∧ n.toNat < c.spent.length ∧ vget c.spent n.toNat = false
      ∧ c' = { c with spent := c.spent.set n.toNat true,
                      spendable := (c.spendable + 2 ^ 32 - 1) % 2 ^ 32 }
      ∧ e = ((c.spendable + 2 ^ 32 - 1) % 2 ^ 32 == 0) := by
  unfold coin.spend_exhausts at h
  by_cases h1 : n < 0 ∨ (c.spent.length : Int) ≤ n
  · rw [if_pos h1] at h
    exact Except.noConfusion h
  · rw [if_neg h1] at h
    by_cases h2 : vget c.spent n.toNat = true
    · rw [if_pos h2] at h
      exact Except.noConfusion h
    · rw [if_neg h2] at h
      have h3 := Except.ok.inj h
      have h4 := (Prod.mk.inj h3).1
      have h5 := (Prod.mk.inj h3).2
      refine ⟨by omega, by omega, by simpa using h2, h4.symm, h5.symm⟩

/-- When `spend_exhausts` succeeds. -/
theorem coin.spend_exhausts_eq (c : coin) (n : Int) (h0 : 0 ≤ n) (hn : n.toNat < c.spent.length)
    (hs : vget c.spent n.toNat = false) :
    c.spend_exhausts n
      = .ok ({ c with spent := c.spent.set n.toNat true,
                      spendable := (c.spendable + 2 ^ 32 - 1) % 2 ^ 32 },
             (c.spendable + 2 ^ 32 - 1) % 2 ^ 32 == 0) := by
  unfold coin.spend_exhausts
  have h1 : ¬ (n < 0 ∨ (c.spent.length : Int) ≤ n) := by omega
  rw [if_neg h1, hs]
  rfl

theorem coin.spend_exhausts_spent {c : coin} {n : Int} (h0 : 0 ≤ n)
    (hn : n.toNat < c.spent.length) (hs : vget c.spent n.toNat = true) :
    c.spend_exhausts n = .error .AlreadySpent := by
  unfold coin.spend_exhausts
  have h1 : ¬ (n < 0 ∨ (c.spent.length : Int) ≤ n) := by omega
  rw [if_neg h1, if_pos hs]

theorem coin.spend_exhausts_keeps {c c' : coin} {n : Int} {e : Bool}
    (h : c.spend_exhausts n = .ok (c', e)) :
    c'.x = c.x ∧ c'.spent.length = c.spent.length
      ∧ (∀ j, vget c.spent j = true → vget c'.spent j = true) := by
  obtain ⟨_, h2, _, h4, _⟩ := coin.spend_exhausts_ok h
  subst h4
  refine ⟨rfl, by simp, ?_⟩
  intro j hj
  simp only []
  rw [vget_set _ _ _ _ h2]
  by_cases hjn : j = n.toNat
  · simp [hjn]
  · simp only [hjn, if_false]
    exact hj

theorem coin.spend_all_keeps (ns : List Int) :
    ∀ {c c' : coin}, c.spend_all ns = .ok c' →
      c'.x = c.x ∧ c'.spent.length = c.spent.length
        ∧ (∀ j, vget c.spent j = true → vget c'.spent j = true) := by
  induction ns with
  | nil =>
    intro c c' h
    have := Except.ok.inj h
    subst this
    exact ⟨rfl, rfl, fun _ h => h⟩
  | cons n ns ih =>
    intro c c' h
    unfold coin.spend_all at h
    cases h1 : c.spend_exhausts n with
    | error e =>
      rw [h1] at h
      exact Except.noConfusion h
    | ok r =>
      obtain ⟨c1, e⟩ := r
      rw [h1] at h
      obtain ⟨a1, a2, a3⟩ := coin.spend_exhausts_keeps h1
      obtain ⟨b1, b2, b3⟩ := ih h
      exact ⟨b1.trans a1, b2.trans a2, fun j hj => b3 j (a3 j hj)⟩

theorem count_false_set_true (l : List Bool) (i : Nat) (hi : i < l.length)
    (h : vget l i = false) : (l.set i true).count false + 1 = l.count false := by
  have hg : l[i] = false := by
    simpa [vget, List.getD_eq_getElem?_getD, List.getElem?_eq_getElem hi] using h
  have hpos : 0 < l.count false := by
    apply List.count_pos_iff.mpr
    rw [← hg]
    exact List.getElem_mem hi
  rw [List.count_set true false l i hi, hg]
  simp
  omega

/-- The coin invariant of the data model, with the range of `uint32_t spendable`. -/
theorem coin.spend_exhausts_inv {c c' : coin} {n : Int} {e : Bool}
    (h : c.spend_exhausts n = .ok (c', e)) (hinv : c.spendable = c.spent.count false)
    (hr : c.spendable < 2 ^ 32) :
    0 < c.spendable ∧ c'.spendable + 1 = c.spendable ∧ c'.spendable = c'.spent.count false
      ∧ c'.spendable < 2 ^ 32 ∧ e = (c'.spendable == 0) := by
  obtain ⟨_, h2, h3, h4, h5⟩ := coin.spend_exhausts_ok h
  have hc := count_false_set_true c.spent n.toNat h2 h3
  subst h4
  simp only []
  have hm : (c.spendable + 2 ^ 32 - 1) % 2 ^ 32 = c.spendable - 1 := by omega
  rw [hm] at h5 ⊢
  exact ⟨by omega, by omega, by omega, by omega, h5⟩

theorem coin.construct_inv (x : tx) :
    (coin.construct x).spent.count false = x.spendable_outputs := by
  rw [coin.construct_eq, tx.spendable_outputs]
  simp only [List.count_eq_countP, List.countP_map]
  congr 1
  funext o
  cases h : o.provably_unspendable <;> simp [h]

theorem wideTx_vout : wideTx.vout = List.replicate (2 ^ 32) ⟨false⟩ := rfl

theorem wideTx_spendable_outputs : wideTx.spendable_outputs = 2 ^ 32 := by
  rw [tx.spendable_outputs, wideTx_vout, List.countP_replicate]
  rfl

theorem wideTx_construct :
    coin.construct wideTx
      = { x := wideTx, spent := List.replicate (2 ^ 32) false, spendable := 0 } := by
  rw [coin.construct_eq, wideTx_spendable_outputs, wideTx_vout, List.map_replicate, Nat.mod_self]

theorem coin_map_t.find_assign (m : coin_map_t) (key k : uint256) (c : coin) :
    coin_map_t.find (coin_map_t.assign m key c) k
      = if k = key then some c else coin_map_t.find m k := by
  induction m with
  | nil =>
    by_cases h : k = key
    · simp [coin_map_t.assign, coin_map_t.find, h]
    · have h2 : ¬ (key = k) := fun e => h e.symm
      simp [coin_map_t.assign, coin_map_t.find, h, h2]
  | cons e m ih =>
    obtain ⟨k0, c0⟩ := e
    unfold coin_map_t.assign
    by_cases h1 : key < k0
    · rw [if_pos h1]
      by_cases h : k = key
      · simp [coin_map_t.find, h]
      · have h2 : ¬ (key = k) := fun e => h e.symm
        simp [coin_map_t.find, h, h2]
    · rw [if_neg h1]
      by_cases h3 : key = k0
      · rw [if_pos h3]
        subst h3
        by_cases h : k = key
        · simp [coin_map_t.find, h]
        · have h2 : ¬ (key = k) := fun e => h e.symm
          simp [coin_map_t.find, h, h2]
      · rw [if_neg h3]
        by_cases h : k = key
        · subst h
          have h4 : ¬ (k0 = k) := fun e => h3 e.symm
          simp [coin_map_t.find, h4, ih]
        · by_cases h5 : k0 = k
          · simp [coin_map_t.find, h5, h]
          · simp [coin_map_t.find, h5, ih, h]

theorem coin_map_t.find_erase (m : coin_map_t) (key k : uint256) :
    coin_map_t.find (coin_map_t.erase m key) k
      = if k = key then none else coin_map_t.find m k := by
  induction m with
  | nil => simp [coin_map_t.erase, coin_map_t.find]
  | cons e m ih =>
    obtain ⟨k0, c0⟩ := e
    unfold coin_map_t.erase at ih ⊢
    by_cases h1 : k0 = key
    · subst h1
      by_cases h : k = k0
      · subst h
        simpa [List.filter_cons] using ih
      · have h2 : ¬ (k0 = k) := fun e => h e.symm
        simp [List.filter_cons, ih, h, h2, coin_map_t.find]
    · by_cases h : k = key
      · subst h
        simp [List.filter_cons, h1, coin_map_t.find, ih]
      · simp [List.filter_cons, h1, coin_map_t.find, ih, h]

theorem coin_map_t.count_eq_one_iff (m : coin_map_t) (k : uint256) :
    coin_map_t.count m k = 1 ↔ ∃ c, coin_map_t.find m k = some c := by
  unfold coin_map_t.count
  cases h : coin_map_t.find m k with
  | none => simp
  | some c => simp

theorem coin_map_t.count_eq_zero_iff (m : coin_map_t) (k : uint256) :
    coin_map_t.count m k = 0 ↔ coin_map_t.find m k = none := by
  unfold coin_map_t.count
  cases h : coin_map_t.find m k with
  | none => simp
  | some c => simp

/-- The map after one input has been spent: the coin is stored back, then erased when it is
exhausted. -/
theorem view.insert.find_after_spend (m : coin_map_t) (h k : uint256) (c : coin) (e : Bool) :
    coin_map_t.find
        (if e = true then coin_map_t.erase (coin_map_t.assign m h c) h
          else coin_map_t.assign m h c) k
      = if k = h then (if e = true then none else some c) else coin_map_t.find m k := by
  cases e
  · simp [coin_map_t.find_assign]
  · simp only [if_true, coin_map_t.find_erase, coin_map_t.find_assign]
    by_cases hk : k = h
    · simp [hk]
    · simp [hk]

/-- One iteration of the input loop, read backwards from a successful run. -/
theorem view.insert.spend_inputs_cons {a : txin} {vin : List txin} {m m' : coin_map_t}
    (h : view.insert.spend_inputs (a :: vin) m = .ok m') :
    ∃ (c c' : coin) (e : Bool), coin_map_t.find m a.prevout.hash = some c
      ∧ c.spend_exhausts (int_of_uint32 a.prevout.n) = .ok (c', e)
      ∧ view.insert.spend_inputs vin
          (if e = true then coin_map_t.erase (coin_map_t.assign m a.prevout.hash c') a.prevout.hash
            else coin_map_t.assign m a.prevout.hash c') = .ok m' := by
  unfold view.insert.spend_inputs at h
  unfold coin_map_t.at at h
  cases hf : coin_map_t.find m a.prevout.hash with
  | none =>
    rw [hf] at h
    exact Except.noConfusion h
  | some c =>
    rw [hf] at h
    simp only [] at h
    cases hs : c.spend_exhausts (int_of_uint32 a.prevout.n) with
    | error e =>
      rw [hs] at h
      exact Except.noConfusion h
    | ok r =>
      obtain ⟨c', e⟩ := r
      rw [hs] at h
      simp only [] at h
      refine ⟨c, c', e, rfl, hs, ?_⟩
      cases e
      · simpa using h
      · simpa using h

/-- A key that no input references keeps its entry through the input loop. -/
theorem view.insert.spend_inputs_frame (vin : List txin) :
    ∀ {m m' : coin_map_t} (k : uint256), view.insert.spend_inputs vin m = .ok m' →
      (∀ a ∈ vin, a.prevout.hash ≠ k) → coin_map_t.find m' k = coin_map_t.find m k := by
  induction vin with
  | nil =>
    intro m m' k h _
    have := Except.ok.inj h
    rw [this]
  | cons a vin ih =>
    intro m m' k h hk
    obtain ⟨c, c', e, h1, h2, h3⟩ := view.insert.spend_inputs_cons h
    have hne : ¬ (k = a.prevout.hash) := fun e => hk a (List.mem_cons_self _ _) e.symm
    rw [ih k h3 (fun b hb => hk b (List.mem_cons_of_mem _ hb)),
      view.insert.find_after_spend, if_neg hne]

/-- The input loop creates no entry. -/
theorem view.insert.spend_inputs_absent (vin : List txin) :
    ∀ {m m' : coin_map_t} (k : uint256), view.insert.spend_inputs vin m = .ok m' →
      coin_map_t.find m k = none → coin_map_t.find m' k = none := by
  induction vin with
  | nil =>
    intro m m' k h hk
    have := Except.ok.inj h
    rw [← this]
    exact hk
  | cons a vin ih =>
    intro m m' k h hk
    obtain ⟨c, c', e, h1, h2, h3⟩ := view.insert.spend_inputs_cons h
    apply ih k h3
    rw [view.insert.find_after_spend]
    by_cases hne : k = a.prevout.hash
    · rw [hne, h1] at hk
      exact Option.noConfusion hk
    · rw [if_neg hne]
      exact hk

/-- Every input of a successful input loop references a key of the map it started from. -/
theorem view.insert.spend_inputs_present (vin : List txin) :
    ∀ {m m' : coin_map_t}, view.insert.spend_inputs vin m = .ok m' →
      ∀ a ∈ vin, ∃ c, coin_map_t.find m a.prevout.hash = some c := by
  induction vin with
  | nil =>
    intro m m' _ a ha
    exact absurd ha (List.not_mem_nil a)
  | cons b vin ih =>
    intro m m' h a ha
    obtain ⟨c, c', e, h1, h2, h3⟩ := view.insert.spend_inputs_cons h
    rcases List.mem_cons.mp ha with hab | hav
    · rw [hab]
      exact ⟨c, h1⟩
    · obtain ⟨d, hd⟩ := ih h3 a hav
      rw [view.insert.find_after_spend] at hd
      by_cases hne : a.prevout.hash = b.prevout.hash
      · rw [hne]
        exact ⟨c, h1⟩
      · rw [if_neg hne] at hd
        exact ⟨d, hd⟩

theorem exists_false_of_count_pos (l : List Bool) (h : 0 < l.count false) :
    ∃ i : Nat, l[i]? = some false := by
  have hm : false ∈ l := List.count_pos_iff.mp h
  exact List.mem_iff_getElem?.mp hm

/-- The input loop removes an entry all of whose unspent outputs it spends. -/
theorem view.insert.spend_inputs_exhausts (vin : List txin) :
    ∀ {m m' : coin_map_t} (R : uint256) (c : coin),
      view.insert.spend_inputs vin m = .ok m' → coin_map_t.find m R = some c →
      c.invariant → (∃ a ∈ vin, a.prevout.hash = R) →
      (∀ i : Nat, c.spent[i]? = some false →
        ∃ a ∈ vin, a.prevout.hash = R ∧ int_of_uint32 a.prevout.n = (i : Int)) →
      coin_map_t.find m' R = none := by
  induction vin with
  | nil =>
    intro m m' R c _ _ _ hex _
    obtain ⟨a, ha, _⟩ := hex
    exact absurd ha (List.not_mem_nil a)
  | cons b vin ih =>
    intro m m' R c h hR hinv hex hcov
    obtain ⟨c0, c1, e, h1, h2, h3⟩ := view.insert.spend_inputs_cons h
    by_cases hb : b.prevout.hash = R
    · rw [hb, hR] at h1
      have hc : c0 = c := (Option.some.inj h1).symm
      subst hc
      obtain ⟨p1, p2, p3, p4, p5⟩ := coin.spend_exhausts_inv h2 hinv.1 hinv.2
      obtain ⟨q1, q2, q3, q4, _⟩ := coin.spend_exhausts_ok h2
      cases e with
      | true =>
        apply view.insert.spend_inputs_absent vin R h3
        rw [view.insert.find_after_spend, hb]
        simp
      | false =>
        have hfind : coin_map_t.find
            (if false = true then
              coin_map_t.erase (coin_map_t.assign m b.prevout.hash c1) b.prevout.hash
              else coin_map_t.assign m b.prevout.hash c1) R = some c1 := by
          rw [view.insert.find_after_spend, hb]
          simp
        have hcov1 : ∀ i : Nat, c1.spent[i]? = some false →
            ∃ a ∈ vin, a.prevout.hash = R ∧ int_of_uint32 a.prevout.n = (i : Int) := by
          intro i hi
          have hi2 : (c0.spent.set (int_of_uint32 b.prevout.n).toNat true)[i]? = some false := by
            rw [q4] at hi
            exact hi
          have hne : (int_of_uint32 b.prevout.n).toNat ≠ i := by
            intro heq
            rw [heq, List.getElem?_set_self (by omega)] at hi2
            exact Bool.noConfusion (Option.some.inj hi2)
          rw [List.getElem?_set_ne hne] at hi2
          obtain ⟨a, ha, ha1, ha2⟩ := hcov i hi2
          rcases List.mem_cons.mp ha with hab | hav
          · exfalso
            apply hne
            rw [← hab, ha2]
            rfl
          · exact ⟨a, hav, ha1, ha2⟩
        have hpos : 0 < c1.spent.count false := by
          have hne0 : c1.spendable ≠ 0 := by
            intro h0
            rw [h0] at p5
            exact Bool.noConfusion p5
          omega
        obtain ⟨i, hi⟩ := exists_false_of_count_pos _ hpos
        obtain ⟨a, ha, ha1, _⟩ := hcov1 i hi
        exact ih R c1 h3 hfind ⟨p3, p4⟩ ⟨a, ha, ha1⟩ hcov1
    · have hne : ¬ (R = b.prevout.hash) := fun e => hb e.symm
      have hfind : coin_map_t.find
          (if e = true then
            coin_map_t.erase (coin_map_t.assign m b.prevout.hash c1) b.prevout.hash
            else coin_map_t.assign m b.prevout.hash c1) R = some c := by
        rw [view.insert.find_after_spend, if_neg hne]
        exact hR
      apply ih R c h3 hfind hinv
      · obtain ⟨a, ha, ha1⟩ := hex
        rcases List.mem_cons.mp ha with hab | hav
        · rw [hab] at ha1
          exact absurd ha1 hb
        · exact ⟨a, hav, ha1⟩
      · intro i hi
        obtain ⟨a, ha, ha1, ha2⟩ := hcov i hi
        rcases List.mem_cons.mp ha with hab | hav
        · rw [hab] at ha1
          exact absurd ha1 hb
        · exact ⟨a, hav, ha1, ha2⟩

/-- What a successful "add new outputs" step did. -/
theorem view.insert.add_outputs_ok {m : coin_map_t} {x : tx} {v' : view}
    (h : view.insert.add_outputs m x = .ok v') :
    ((coin.construct x).spendable = 0 ∧ v'.coin_map = m)
      ∨ ((coin.construct x).spendable ≠ 0
          ∧ (view.dupe_coinbase_tx x.hash = true ∨ coin_map_t.count m x.hash = 0)
          ∧ v'.coin_map = coin_map_t.assign m x.hash (coin.construct x)) := by
  unfold view.insert.add_outputs at h
  simp only [] at h
  by_cases h0 : (coin.construct x).spendable = 0
  · rw [if_pos h0] at h
    have := Except.ok.inj h
    rw [← this]
    exact Or.inl ⟨h0, rfl⟩
  · rw [if_neg h0] at h
    by_cases hd : (!(view.dupe_coinbase_tx x.hash || coin_map_t.count m x.hash == 0)) = true
    · rw [if_pos hd] at h
      exact Except.noConfusion h
    · rw [if_neg hd] at h
      have := Except.ok.inj h
      rw [← this]
      refine Or.inr ⟨h0, ?_, rfl⟩
      cases hdc : view.dupe_coinbase_tx x.hash with
      | true => exact Or.inl rfl
      | false =>
        right
        simpa [hdc] using hd

/-- What a successful `insert` did. -/
theorem view.insert_ok {v v' : view} {x : tx} (h : v.insert x = .ok v') :
    ∃ m, (if x.IsCoinBase = true then m = v.coin_map
            else view.insert.spend_inputs x.vin v.coin_map = .ok m)
      ∧ view.insert.add_outputs m x = .ok v' := by
  unfold view.insert at h
  cases hcb : x.IsCoinBase with
  | true =>
    rw [hcb] at h
    exact ⟨v.coin_map, by simp, by simpa using h⟩
  | false =>
    rw [hcb] at h
    simp only [Bool.not_false, if_true] at h
    cases hs : view.insert.spend_inputs x.vin v.coin_map with
    | error e =>
      rw [hs] at h
      exact Except.noConfusion h
    | ok m =>
      rw [hs] at h
      exact ⟨m, by simp, h⟩

theorem view.get_absent (v : view) (k : uint256) (h : coin_map_t.find v.coin_map k = none) :
    v.get k = ([Diagnostic.MISSING_TXID k], .error .NotFound) := by
  have h0 : coin_map_t.count v.coin_map k = 0 := (coin_map_t.count_eq_zero_iff _ _).mpr h
  unfold view.get
  simp [h0]

theorem coin.construct_all_unspendable (x : tx)
    (hall : ∀ o ∈ x.vout, o.provably_unspendable = true) : (coin.construct x).spendable = 0 := by
  rw [coin.construct_eq]
  simp only []
  have h0 : x.spendable_outputs = 0 := by
    rw [tx.spendable_outputs, List.countP_eq_zero]
    intro o ho
    simp [hall o ho]
  rw [h0, Nat.zero_mod]

theorem view.insert.add_outputs_error {m : coin_map_t} {x : tx} {e : Violation}
    (h : view.insert.add_outputs m x = .error e) : e = .DuplicateKey := by
  unfold view.insert.add_outputs at h
  simp only [] at h
  by_cases h0 : (coin.construct x).spendable = 0
  · rw [if_pos h0] at h
    exact Except.noConfusion h
  · rw [if_neg h0] at h
    by_cases hd : (!(view.dupe_coinbase_tx x.hash || coin_map_t.count m x.hash == 0)) = true
    · rw [if_pos hd] at h
      exact (Except.error.inj h).symm
    · rw [if_neg hd] at h
      exact Except.noConfusion h

theorem view.insert_coinbase (v : view) (x : tx) (hcb : x.IsCoinBase = true) :
    v.insert x = view.insert.add_outputs v.coin_map x := by
  unfold view.insert
  rw [hcb]
  rfl

theorem view.insert_not_coinbase (v : view) (x : tx) (hcb : x.IsCoinBase = false) :
    v.insert x
      = match view.insert.spend_inputs x.vin v.coin_map with
        | .error e => .error e
        | .ok m => view.insert.add_outputs m x := by
  unfold view.insert
  rw [hcb]
  rfl

theorem view.insert.add_outputs_skip (m : coin_map_t) (x : tx)
    (h0 : (coin.construct x).spendable = 0) : view.insert.add_outputs m x = .ok ⟨m⟩ := by
  unfold view.insert.add_outputs
  simp only []
  rw [if_pos h0]

theorem view.insert.add_outputs_assign (m : coin_map_t) (x : tx)
    (h0 : (coin.construct x).spendable ≠ 0)
    (hd : view.dupe_coinbase_tx x.hash = true ∨ coin_map_t.count m x.hash = 0) :
    view.insert.add_outputs m x = .ok ⟨coin_map_t.assign m x.hash (coin.construct x)⟩ := by
  unfold view.insert.add_outputs
  simp only []
  rw [if_neg h0]
  have hc : ¬ ((!(view.dupe_coinbase_tx x.hash || coin_map_t.count m x.hash == 0)) = true) := by
    rcases hd with h | h
    · simp [h]
    · simp [h]
  rw [if_neg hc]

theorem view.insert.add_outputs_duplicate (m : coin_map_t) (x : tx)
    (h0 : (coin.construct x).spendable ≠ 0) (hd : view.dupe_coinbase_tx x.hash = false)
    (hk : coin_map_t.count m x.hash = 1) :
    view.insert.add_outputs m x = .error .DuplicateKey := by
  unfold view.insert.add_outputs
  simp only []
  rw [if_neg h0]
  have hc : (!(view.dupe_coinbase_tx x.hash || coin_map_t.count m x.hash == 0)) = true := by
    simp [hd, hk]
  rw [if_pos hc]

theorem coin.construct_spendable (x : tx) :
    (coin.construct x).spendable = x.spendable_outputs % 2 ^ 32 := by
  rw [coin.construct_eq]

theorem coin.construct_spent (x : tx) :
    (coin.construct x).spent = x.vout.map (fun o => o.provably_unspendable) := by
  rw [coin.construct_eq]

theorem coin.construct_x (x : tx) : (coin.construct x).x = x := by
  rw [coin.construct_eq]

theorem wideDupeTx_spendable_outputs : wideDupeTx.spendable_outputs = 2 ^ 32 := by
  have hv : wideDupeTx.vout = List.replicate (2 ^ 32) ⟨false⟩ := rfl
  rw [tx.spendable_outputs, hv, List.countP_replicate]
  rfl

theorem coin.construct_invariant (x : tx) (hx : x.spendable_outputs < 2 ^ 32) :
    (coin.construct x).invariant := by
  have h1 : (coin.construct x).spendable = x.spendable_outputs := by
    rw [coin.construct_spendable]
    exact Nat.mod_eq_of_lt hx
  exact ⟨h1.trans (coin.construct_inv x).symm, h1 ▸ hx⟩

theorem view.insert.spend_inputs_append (l1 l2 : List txin) :
    ∀ (m : coin_map_t), view.insert.spend_inputs (l1 ++ l2) m
      = match view.insert.spend_inputs l1 m with
        | .error e => .error e
        | .ok m1 => view.insert.spend_inputs l2 m1 := by
  induction l1 with
  | nil =>
    intro m
    rfl
  | cons a l1 ih =>
    intro m
    simp only [List.cons_append, view.insert.spend_inputs]
    cases h1 : coin_map_t.at m a.prevout.hash with
    | error e => rfl
    | ok c =>
      simp only []
      cases h2 : c.spend_exhausts (int_of_uint32 a.prevout.n) with
      | error e => rfl
      | ok r =>
        obtain ⟨c', e⟩ := r
        simp only []
        cases e
        · simp only [Bool.false_eq_true, if_false]
          exact ih _
        · simp only [if_true]
          exact ih _

/-- A consumed prevout stays consumed through the input loop. -/
theorem view.insert.consumed_keeps (p : outpoint) (vin : List txin) :
    ∀ {m m' : coin_map_t}, view.insert.spend_inputs vin m = .ok m' →
      view.insert.consumed p m → view.insert.consumed p m' := by
  induction vin with
  | nil =>
    intro m m' h hq
    have := Except.ok.inj h
    rw [← this]
    exact hq
  | cons b vin ih =>
    intro m m' h hq
    obtain ⟨c0, c1, e, h1, h2, h3⟩ := view.insert.spend_inputs_cons h
    apply ih h3
    unfold view.insert.consumed
    rw [view.insert.find_after_spend]
    by_cases hb : p.hash = b.prevout.hash
    · rw [if_pos hb]
      cases e with
      | true => exact Or.inl rfl
      | false =>
        right
        rcases hq with hn | ⟨c, hc, q1, q2, q3⟩
        · rw [hb, h1] at hn
          exact Option.noConfusion hn
        · rw [hb, h1] at hc
          have hcc : c0 = c := Option.some.inj hc
          subst hcc
          obtain ⟨_, k2, k3⟩ := coin.spend_exhausts_keeps h2
          exact ⟨c1, by simp, q1, by rw [k2]; exact q2, k3 _ q3⟩
    · rw [if_neg hb]
      exact hq

/-- After an input has been spent, and any further inputs, its prevout is consumed. -/
theorem view.insert.consumed_after (a : txin) (vin : List txin) {m m' : coin_map_t}
    (h : view.insert.spend_inputs (a :: vin) m = .ok m') : view.insert.consumed a.prevout m' := by
  obtain ⟨c0, c1, e, h1, h2, h3⟩ := view.insert.spend_inputs_cons h
  apply view.insert.consumed_keeps a.prevout vin h3
  unfold view.insert.consumed
  rw [view.insert.find_after_spend, if_pos rfl]
  cases e with
  | true => exact Or.inl rfl
  | false =>
    right
    obtain ⟨q1, q2, _, q4, _⟩ := coin.spend_exhausts_ok h2
    refine ⟨c1, by simp, q1, ?_, ?_⟩
    · rw [q4]
      simpa using q2
    · rw [q4]
      simp only []
      rw [vget_set _ _ _ _ q2]
      simp

/-- An input whose prevout is consumed stops the input loop. -/
theorem view.insert.spend_inputs_consumed (b : txin) (vin : List txin) (m : coin_map_t)
    (hq : view.insert.consumed b.prevout m) :
    (coin_map_t.find m b.prevout.hash = none
        ∧ view.insert.spend_inputs (b :: vin) m = .error .MissingCoin)
      ∨ ((∃ c, coin_map_t.find m b.prevout.hash = some c
            ∧ c.spent[(int_of_uint32 b.prevout.n).toNat]? = some true)
          ∧ view.insert.spend_inputs (b :: vin) m = .error .AlreadySpent) := by
  rcases hq with hn | ⟨c, hc, q1, q2, q3⟩
  · left
    refine ⟨hn, ?_⟩
    unfold view.insert.spend_inputs coin_map_t.at
    rw [hn]
  · right
    refine ⟨⟨c, hc, (vget_eq_true_iff _ _).mp q3⟩, ?_⟩
    unfold view.insert.spend_inputs coin_map_t.at
    rw [hc]
    simp only []
    rw [coin.spend_exhausts_spent q1 q2 q3]

theorem coin_map_t.find_eq_none_iff (m : coin_map_t) (k : uint256) :
    coin_map_t.find m k = none ↔ k ∉ coin_map_t.keys m := by
  induction m with
  | nil => simp [coin_map_t.find, coin_map_t.keys]
  | cons e m ih =>
    obtain ⟨k0, c0⟩ := e
    unfold coin_map_t.keys at ih ⊢
    by_cases h : k0 = k
    · simp [coin_map_t.find, h]
    · have h2 : ¬ (k = k0) := fun e => h e.symm
      simp [coin_map_t.find, h, h2, ih]

theorem coin_map_t.count_eq_one_iff_mem (m : coin_map_t) (k : uint256) :
    coin_map_t.count m k = 1 ↔ k ∈ coin_map_t.keys m := by
  unfold coin_map_t.count
  cases hf : coin_map_t.find m k with
  | none =>
    have := (coin_map_t.find_eq_none_iff m k).mp hf
    simp [this]
  | some c =>
    have : k ∈ coin_map_t.keys m := by
      by_contra hc
      rw [(coin_map_t.find_eq_none_iff m k).mpr hc] at hf
      exact Option.noConfusion hf
    simp [this]

theorem coin_map_t.count_ne_one_iff (m : coin_map_t) (k : uint256) :
    (coin_map_t.count m k != 1) = decide (k ∉ coin_map_t.keys m) := by
  by_cases h : k ∈ coin_map_t.keys m
  · have := (coin_map_t.count_eq_one_iff_mem m k).mpr h
    simp [h, this]
  · have : coin_map_t.count m k ≠ 1 := fun e => h ((coin_map_t.count_eq_one_iff_mem m k).mp e)
    simp [h, this]

/-- One loop of `operator==` in closed form. -/
theorem view.operator_eq.loop_eq (line : uint256 → Diagnostic) (other : coin_map_t) :
    ∀ (m : coin_map_t) (out : List Diagnostic) (equal : Bool),
      view.operator_eq.loop line other m (out, equal)
        = (out ++ (coin_map_t.keys_missing_in m other).map line,
            equal && decide (coin_map_t.keys_missing_in m other = [])) := by
  intro m
  induction m with
  | nil =>
    intro out equal
    simp [view.operator_eq.loop, coin_map_t.keys_missing_in, coin_map_t.keys]
  | cons e m ih =>
    intro out equal
    obtain ⟨k0, c0⟩ := e
    unfold view.operator_eq.loop
    rw [coin_map_t.count_ne_one_iff]
    have hk : coin_map_t.keys_missing_in ((k0, c0) :: m) other
        = if k0 ∉ coin_map_t.keys other then k0 :: coin_map_t.keys_missing_in m other
          else coin_map_t.keys_missing_in m other := by
      unfold coin_map_t.keys_missing_in coin_map_t.keys
      by_cases h : k0 ∈ List.map Prod.fst other
      · simp [List.filter_cons, h]
      · simp [List.filter_cons, h]
    by_cases h : k0 ∈ coin_map_t.keys other
    · have hd : decide (k0 ∉ coin_map_t.keys other) = false := by simp [h]
      rw [hd, hk]
      simp only [Bool.false_eq_true, if_false, h, not_true_eq_false]
      exact ih out equal
    · have hd : decide (k0 ∉ coin_map_t.keys other) = true := by simp [h]
      rw [hd, hk]
      simp only [if_true, h, not_false_eq_true]
      rw [ih]
      simp

theorem view.operator_eq_eq (v other : view) :
    v.operator_eq other
      = ((coin_map_t.keys_missing_in v.coin_map other.coin_map).map Diagnostic.other_is_missing
          ++ (coin_map_t.keys_missing_in other.coin_map v.coin_map).map Diagnostic.I_am_missing,
        decide (coin_map_t.keys_missing_in v.coin_map other.coin_map = [])
          && decide (coin_map_t.keys_missing_in other.coin_map v.coin_map = [])) := by
  unfold view.operator_eq
  simp only []
  rw [view.operator_eq.loop_eq, view.operator_eq.loop_eq]
  simp

theorem coin_map_t.keys_missing_in_eq_nil (m other : coin_map_t) :
    coin_map_t.keys_missing_in m other = []
      ↔ ∀ k, k ∈ coin_map_t.keys m → k ∈ coin_map_t.keys other := by
  unfold coin_map_t.keys_missing_in
  rw [List.filter_eq_nil_iff]
  constructor
  · intro h k hk
    have := h k hk
    simpa using this
  · intro h k hk
    simp [h k hk]

theorem coin_map_t.ordered_nodup {m : coin_map_t} (h : m.ordered) :
    (coin_map_t.keys m).Nodup := by
  unfold coin_map_t.ordered at h
  exact List.Pairwise.imp (fun hab => Nat.ne_of_lt hab) h

theorem coin_map_t.count_keys_missing_in (m other : coin_map_t) (hm : m.ordered) (k : uint256) :
    (coin_map_t.keys_missing_in m other).count k
      = if k ∈ coin_map_t.keys m ∧ k ∉ coin_map_t.keys other then 1 else 0 := by
  have hn : (coin_map_t.keys_missing_in m other).Nodup :=
    List.Nodup.filter _ (coin_map_t.ordered_nodup hm)
  have hmem : k ∈ coin_map_t.keys_missing_in m other
      ↔ k ∈ coin_map_t.keys m ∧ k ∉ coin_map_t.keys other := by
    unfold coin_map_t.keys_missing_in
    simp [List.mem_filter]
  by_cases h : k ∈ coin_map_t.keys m ∧ k ∉ coin_map_t.keys other
  · rw [if_pos h]
    exact List.count_eq_one_of_mem hn (hmem.mpr h)
  · rw [if_neg h]
    exact List.count_eq_zero_of_not_mem (fun hk => h (hmem.mp hk))

theorem coin_map_t.length_keys_missing_in (m other : coin_map_t) (hm : m.ordered) :
    (coin_map_t.keys_missing_in m other).length
      = ((coin_map_t.keys m).toFinset \ (coin_map_t.keys other).toFinset).card := by
  have hn : (coin_map_t.keys_missing_in m other).Nodup :=
    List.Nodup.filter _ (coin_map_t.ordered_nodup hm)
  rw [← List.toFinset_card_of_nodup hn]
  congr 1
  ext k
  unfold coin_map_t.keys_missing_in
  simp [List.mem_filter]

theorem coin_map_t.mem_keys_missing_in (m other : coin_map_t) (k : uint256) :
    k ∈ coin_map_t.keys_missing_in m other
      ↔ k ∈ coin_map_t.keys m ∧ k ∉ coin_map_t.keys other := by
  unfold coin_map_t.keys_missing_in
  simp [List.mem_filter]

theorem Diagnostic.other_is_missing_injective :
    Function.Injective Diagnostic.other_is_missing := by
  intro a b h
  exact Diagnostic.other_is_missing.inj h

theorem Diagnostic.I_am_missing_injective : Function.Injective Diagnostic.I_am_missing := by
  intro a b h
  exact Diagnostic.I_am_missing.inj h

theorem int_of_uint32_zero : int_of_uint32 0 = 0 := by decide

theorem int_of_uint32_one : int_of_uint32 1 = 1 := by decide

theorem count_false_of_all_true (l : List Bool) (h : ∀ b ∈ l, b = true) : l.count false = 0 := by
  apply List.count_eq_zero_of_not_mem
  intro hm
  exact Bool.noConfusion (h false hm)

/-- The coin of a transaction whose flags are given, when fewer than `2^32` are false. -/
theorem coin.construct_of_flags (x : tx) (flags : List Bool)
    (hf : x.vout.map (fun o => o.provably_unspendable) = flags)
    (hn : flags.count false < 2 ^ 32) :
    coin.construct x = ⟨x, flags, flags.count false⟩ := by
  have h1 := coin.construct_inv x
  rw [coin.construct_spent, hf] at h1
  rw [coin.construct_eq, hf, ← h1, Nat.mod_eq_of_lt hn]

/-- A spend of an unspent output of a coin with `s + 1` spendable outputs. -/
theorem coin.spend_exhausts_succ (x : tx) (spent : List Bool) (s n : Nat) (hs : s + 1 < 2 ^ 32)
    (hn : n < spent.length) (hv : vget spent n = false) :
    coin.spend_exhausts ⟨x, spent, s + 1⟩ (n : Int)
      = .ok (⟨x, spent.set n true, s⟩, s == 0) := by
  have hm : (s + 1 + 2 ^ 32 - 1) % 2 ^ 32 = s := by omega
  have h := coin.spend_exhausts_eq ⟨x, spent, s + 1⟩ (n : Int) (Int.ofNat_nonneg n)
    (by simpa using hn) (by simpa using hv)
  simp only [Int.toNat_ofNat, hm] at h
  exact h

/-- One iteration of the input loop, read forwards. -/
theorem view.insert.spend_inputs_step (a : txin) (vin : List txin) (m : coin_map_t)
    (c c' : coin) (e : Bool) (hf : coin_map_t.find m a.prevout.hash = some c)
    (hs : c.spend_exhausts (int_of_uint32 a.prevout.n) = .ok (c', e)) :
    view.insert.spend_inputs (a :: vin) m
      = view.insert.spend_inputs vin
          (if e = true then
            coin_map_t.erase (coin_map_t.assign m a.prevout.hash c') a.prevout.hash
            else coin_map_t.assign m a.prevout.hash c') := by
  simp only [view.insert.spend_inputs, coin_map_t.at, hf, hs]
  cases e <;> rfl

theorem coin_map_t.eq_nil_of_find (m : coin_map_t) (h : ∀ k, coin_map_t.find m k = none) :
    m = [] := by
  cases m with
  | nil => rfl
  | cons e m =>
    obtain ⟨k0, c0⟩ := e
    have := h k0
    simp [coin_map_t.find] at this

theorem coin.Serialize_onto (P : Primitives) (s : Stream) (c : coin) :
    coin.Serialize P s c = s ++ coin.Serialize P [] c := by
  unfold coin.Serialize
  simp only [SerializeBoolVector_eq, List.nil_append, List.append_assoc]

theorem coin_map_t.Serialize_foldl (P : Primitives) (m : coin_map_t) :
    ∀ (s t : Stream),
      m.foldl (fun s e => coin.Serialize P (s ++ P.write_uint256 e.1) e.2) (s ++ t)
        = s ++ m.foldl (fun s e => coin.Serialize P (s ++ P.write_uint256 e.1) e.2) t := by
  induction m with
  | nil =>
    intro s t
    rfl
  | cons e m ih =>
    intro s t
    simp only [List.foldl_cons]
    rw [coin.Serialize_onto P (s ++ t ++ P.write_uint256 e.1),
      coin.Serialize_onto P (t ++ P.write_uint256 e.1), List.append_assoc, List.append_assoc,
      ih s, List.append_assoc]

theorem coin_map_t.Serialize_append (P : Primitives) (s : Stream) (m : coin_map_t) :
    coin_map_t.Serialize P s m = s ++ coin_map_t.Serialize P [] m := by
  unfold coin_map_t.Serialize
  rw [coin_map_t.Serialize_foldl P m s, List.nil_append]

theorem coin_map_t.mem_keys_iff (m : coin_map_t) (k : uint256) :
    k ∈ coin_map_t.keys m ↔ ∃ c, coin_map_t.find m k = some c := by
  rw [← coin_map_t.count_eq_one_iff_mem, coin_map_t.count_eq_one_iff]

theorem coin_map_t.mem_keys_assign (m : coin_map_t) (key k : uint256) (c : coin) :
    k ∈ coin_map_t.keys (coin_map_t.assign m key c) ↔ k = key ∨ k ∈ coin_map_t.keys m := by
  rw [coin_map_t.mem_keys_iff, coin_map_t.mem_keys_iff, coin_map_t.find_assign]
  by_cases h : k = key
  · simp [h]
  · simp [h]

/-- `m[key] = c` keeps the keys strictly ascending. -/
theorem coin_map_t.assign_ordered (m : coin_map_t) (key : uint256) (c : coin)
    (h : m.ordered) : (coin_map_t.assign m key c).ordered := by
  induction m with
  | nil => simp [coin_map_t.assign, coin_map_t.ordered, coin_map_t.keys]
  | cons e m ih =>
    obtain ⟨k0, c0⟩ := e
    have h' : (k0 :: coin_map_t.keys m).Pairwise (fun a b => a < b) := h
    obtain ⟨h1, h2⟩ := List.pairwise_cons.mp h'
    unfold coin_map_t.assign
    by_cases hlt : key < k0
    · rw [if_pos hlt]
      show (key :: k0 :: coin_map_t.keys m).Pairwise (fun a b => a < b)
      apply List.pairwise_cons.mpr
      refine ⟨?_, h'⟩
      intro x hx
      rcases List.mem_cons.mp hx with hx0 | hxm
      · rw [hx0]
        exact hlt
      · exact Nat.lt_trans hlt (h1 x hxm)
    · rw [if_neg hlt]
      by_cases heq : key = k0
      · rw [if_pos heq]
        show (key :: coin_map_t.keys m).Pairwise (fun a b => a < b)
        rw [heq]
        exact h'
      · rw [if_neg heq]
        show (k0 :: coin_map_t.keys (coin_map_t.assign m key c)).Pairwise (fun a b => a < b)
        apply List.pairwise_cons.mpr
        refine ⟨?_, ih h2⟩
        intro x hx
        rcases (coin_map_t.mem_keys_assign m key x c).mp hx with hxk | hxm
        · rw [hxk]
          exact Nat.lt_of_le_of_ne (Nat.le_of_not_lt hlt) (fun e => heq e.symm)
        · exact h1 x hxm

/-- `erase` keeps the keys strictly ascending. -/
theorem coin_map_t.erase_ordered (m : coin_map_t) (key : uint256) (h : m.ordered) :
    (coin_map_t.erase m key).ordered := by
  unfold coin_map_t.ordered coin_map_t.keys coin_map_t.erase at *
  exact List.Pairwise.sublist ((List.filter_sublist m).map Prod.fst) h

theorem view.insert.spend_inputs_ordered (vin : List txin) :
    ∀ {m m' : coin_map_t}, view.insert.spend_inputs vin m = .ok m' → m.ordered → m'.ordered := by
  induction vin with
  | nil =>
    intro m m' h hm
    have := Except.ok.inj h
    rw [← this]
    exact hm
  | cons a vin ih =>
    intro m m' h hm
    obtain ⟨c0, c1, e, _, _, h3⟩ := view.insert.spend_inputs_cons h
    apply ih h3
    cases e
    · exact coin_map_t.assign_ordered m _ _ hm
    · exact coin_map_t.erase_ordered _ _ (coin_map_t.assign_ordered m _ _ hm)

/-- `insert` keeps the keys of the map strictly ascending. -/
theorem view.insert_ordered {v v' : view} {x : tx} (h : v.insert x = .ok v')
    (hv : v.coin_map.ordered) : v'.coin_map.ordered := by
  obtain ⟨m, hm, hadd⟩ := view.insert_ok h
  have hmo : m.ordered := by
    cases hcb : x.IsCoinBase with
    | true =>
      rw [hcb] at hm
      simp only [if_true] at hm
      rw [hm]
      exact hv
    | false =>
      rw [hcb] at hm
      simp only [Bool.false_eq_true, if_false] at hm
      exact view.insert.spend_inputs_ordered x.vin hm hv
  rcases view.insert.add_outputs_ok hadd with ⟨_, h2⟩ | ⟨_, _, h3⟩
  · rw [h2]
    exact hmo
  · rw [h3]
    exact coin_map_t.assign_ordered m _ _ hmo

/-- Every view reached from the empty view by successful inserts has strictly ascending keys. -/
theorem view.insert_all_ordered (txs : List tx) :
    ∀ {v v' : view}, v.insert_all txs = .ok v' → v.coin_map.ordered → v'.coin_map.ordered := by
  induction txs with
  | nil =>
    intro v v' h hv
    have := Except.ok.inj h
    rw [← this]
    exact hv
  | cons x txs ih =>
    intro v v' h hv
    unfold view.insert_all at h
    cases h1 : v.insert x with
    | error e =>
      rw [h1] at h
      exact Except.noConfusion h
    | ok v1 =>
      rw [h1] at h
      exact ih h (view.insert_ordered h1 hv)

/-- A successful spend at an index inside `spent`, from the part of `spend_exhausts` that is the
source line by line: the flag was false, it is set, and `spendable` is decremented. -/
theorem coin.spend_exhausts_within {c c' : coin} {n : Int} {e : Bool} (h0 : 0 ≤ n)
    (hn : n < (c.spent.length : Int)) (h : c.spend_exhausts n = .ok (c', e)) :
    vget c.spent n.toNat = false
      ∧ c' = { c with spent := c.spent.set n.toNat true,
                      spendable := (c.spendable + 2 ^ 32 - 1) % 2 ^ 32 }
      ∧ e = ((c.spendable + 2 ^ 32 - 1) % 2 ^ 32 == 0) := by
  have hn' : n.toNat < c.spent.length := by omega
  cases hv : vget c.spent n.toNat with
  | true =>
    rw [coin.spend_exhausts_spent h0 hn' hv] at h
    exact Except.noConfusion h
  | false =>
    rw [coin.spend_exhausts_eq c n h0 hn' hv] at h
    have h3 := Except.ok.inj h
    exact ⟨rfl, (Prod.mk.inj h3).1.symm, (Prod.mk.inj h3).2.symm⟩

/-- A successful spend at an index inside `spent` keeps the coin invariant, finds `spendable`
positive and takes one off it. -/
theorem coin.spend_exhausts_within_invariant {c c' : coin} {n : Int} {e : Bool} (h0 : 0 ≤ n)
    (hn : n < (c.spent.length : Int)) (h : c.spend_exhausts n = .ok (c', e))
    (hinv : c.invariant) :
    c'.invariant ∧ 0 < c.spendable ∧ c'.spendable + 1 = c.spendable ∧ c'.x = c.x
      ∧ c'.spent.length = c.spent.length ∧ e = (c'.spendable == 0) := by
  obtain ⟨hv, hc, he⟩ := coin.spend_exhausts_within h0 hn h
  have hn' : n.toNat < c.spent.length := by omega
  have hcount := count_false_set_true c.spent n.toNat hn' hv
  obtain ⟨i1, i2⟩ := hinv
  have hm : (c.spendable + 2 ^ 32 - 1) % 2 ^ 32 = c.spendable - 1 := by omega
  have hsp : c'.spendable = c.spendable - 1 := by
    rw [hc]
    exact hm
  have hfl : c'.spent = c.spent.set n.toNat true := by rw [hc]
  have hx : c'.x = c.x := by rw [hc]
  rw [hm, ← hsp] at he
  refine ⟨⟨?_, by omega⟩, by omega, by omega, hx, ?_, he⟩
  · rw [hfl]
    omega
  · rw [hfl, List.length_set]

/-- The coin invariant along a sequence of successful spends at indices inside `spent`. -/
theorem coin.spend_all_within (ns : List Int) :
    ∀ {c c' : coin}, (∀ n ∈ ns, 0 ≤ n ∧ n < (c.spent.length : Int)) →
      c.spend_all ns = .ok c' → c.invariant →
      c'.invariant ∧ c'.x = c.x ∧ c'.spent.length = c.spent.length := by
  induction ns with
  | nil =>
    intro c c' _ h hinv
    have := Except.ok.inj h
    subst this
    exact ⟨hinv, rfl, rfl⟩
  | cons n ns ih =>
    intro c c' hns h hinv
    unfold coin.spend_all at h
    cases hs : c.spend_exhausts n with
    | error e =>
      rw [hs] at h
      exact Except.noConfusion h
    | ok r =>
      obtain ⟨c1, e⟩ := r
      rw [hs] at h
      obtain ⟨hn0, hn1⟩ := hns n (List.mem_cons_self _ _)
      obtain ⟨a1, _, _, a4, a5, _⟩ := coin.spend_exhausts_within_invariant hn0 hn1 hs hinv
      obtain ⟨b1, b2, b3⟩ := ih (fun m hm => by
        rw [a5]
        exact hns m (List.mem_cons_of_mem _ hm)) h a1
      exact ⟨b1, b2.trans a4, b3.trans a5⟩

/-- C1 (codec round trip). For every boolean sequence `v` (of any length, the empty one
included), whatever octets `rest` follow in the stream and whatever the output vector held
before, `DeserializeBoolVector` run on the octets written by `SerializeBoolVector(v)` returns
exactly `v`, returns the number of `false` entries of `v`, and leaves `rest` unread. The
compact-size primitives are a parameter: all that is asked of them is that the length of `v`
reads back. -/
theorem C1_codec_round_trip (cs : CompactSizeCodec) (v v0 : List Bool) (rest : Stream)
    (hcs : ∀ r, cs.ReadCompactSize (cs.WriteCompactSize v.length ++ r) = some (v.length, r)) :
    DeserializeBoolVector cs (SerializeBoolVector cs [] v ++ rest) v0
      = .ok (rest, v, v.count false) := by
  have hs : SerializeBoolVector cs [] v ++ rest
      = cs.WriteCompactSize v.length ++ (payload v ++ rest) := by
    rw [SerializeBoolVector_eq]
    simp
  have hlen : (v.length + 7) / 8 ≤ (payload v ++ rest).length := by
    rw [List.length_append, payload_length]
    omega
  rw [hs, DeserializeBoolVector_eq cs _ (payload v ++ rest) v0 v.length (hcs _) hlen,
    map_bitAt_payload, length_sub_count_true]
  have hd : List.drop ((v.length + 7) / 8) (payload v ++ rest) = rest := by
    rw [← payload_length v]
    exact List.drop_left _ _
  rw [hd]

/-- Witness of C1 on a sequence of length 9 (one full octet and a trailing octet with one
entry), followed by a foreign octet, with the compact-size codec of the serialization library. -/
theorem C1_codec_round_trip_witness :
    DeserializeBoolVector bitcoinCompactSize
      (SerializeBoolVector bitcoinCompactSize []
        [true, false, true, true, false, false, true, false, true] ++ [99]) [true, true]
      = .ok ([99], [true, false, true, true, false, false, true, false, true], 4) :=
  C1_codec_round_trip bitcoinCompactSize [true, false, true, true, false, false, true, false, true]
    [true, true] [99] (bitcoinCompactSize_round_trip 9 (by decide))

/-- C2 (encode wire layout). For every boolean sequence `v` of length `n`,
`SerializeBoolVector` appends to the stream the compact-size encoding of `n` followed by exactly
`ceil(n/8)` octets; bit `k < 8` of octet `i` is entry `v[8*i+k]` when `8*i+k < n` and zero
otherwise, every octet is below 256, and for `n = 0` no payload octet is written. -/
theorem C2_encode_wire_layout (cs : CompactSizeCodec) (s : Stream) (v : List Bool) :
    ∃ pay : Stream,
      SerializeBoolVector cs s v = s ++ cs.WriteCompactSize v.length ++ pay
        ∧ pay.length = (v.length + 7) / 8
        ∧ (∀ i k, i < pay.length → k < 8 →
            (pay.getD i 0).testBit k = (decide (8 * i + k < v.length) && v.getD (8 * i + k) false))
        ∧ (∀ i, i < pay.length → pay.getD i 0 < 256)
        ∧ (v.length = 0 → pay = []) := by
  refine ⟨payload v, SerializeBoolVector_eq cs s v, payload_length v, ?_, ?_, ?_⟩
  · intro i k hi hk
    rw [payload_length] at hi
    rw [payload_testBit v i k hi hk]
    by_cases h : 8 * i + k < v.length
    · simp [h, vget]
    · rw [vget_of_le v _ (by omega)]
      simp [h]
  · intro i hi
    rw [payload_length] at hi
    rw [payload_getD v i hi]
    exact byteOf_lt v _
  · intro h
    apply List.eq_nil_of_length_eq_zero
    rw [payload_length, h]

/-- C3 (decode on an arbitrary stream). If the stream holds the compact size `n` followed by the
octets `s0`, at least `ceil(n/8)` of them, then `DeserializeBoolVector` succeeds with a vector
`v` of length `n` whose entry `8*i+k` is bit `k` of octet `i` of `s0`, returns `n` minus the
number of true entries, and leaves exactly `s0` without its first `ceil(n/8)` octets. Any other
stream with the same `n` whose octets agree with `s0` on the bits below position `n` (so possibly
differing in the unused high bits of the trailing octet) decodes to the same vector and count. -/
theorem C3_decode_arbitrary_stream (cs : CompactSizeCodec) (s s0 : Stream) (v0 : List Bool)
    (n : Nat) (hread : cs.ReadCompactSize s = some (n, s0)) (hlen : (n + 7) / 8 ≤ s0.length) :
    ∃ v : List Bool,
      DeserializeBoolVector cs s v0 = .ok (s0.drop ((n + 7) / 8), v, n - v.count true)
        ∧ v.length = n
        ∧ (∀ i k, k < 8 → 8 * i + k < n → v.getD (8 * i + k) false = (s0.getD i 0).testBit k)
        ∧ (∀ (t s1 : Stream) (w0 : List Bool), cs.ReadCompactSize t = some (n, s1) →
            (n + 7) / 8 ≤ s1.length →
            (∀ i k, k < 8 → 8 * i + k < n → (s1.getD i 0).testBit k = (s0.getD i 0).testBit k) →
            DeserializeBoolVector cs t w0 = .ok (s1.drop ((n + 7) / 8), v, n - v.count true)) := by
  refine ⟨(List.range n).map (bitAt s0), DeserializeBoolVector_eq cs s s0 v0 n hread hlen,
    by simp, ?_, ?_⟩
  · intro i k hk hik
    rw [getD_map_range _ _ _ hik, bitAt]
    have e1 : (8 * i + k) / 8 = i := by omega
    have e2 : (8 * i + k) % 8 = k := by omega
    rw [e1, e2]
  · intro t s1 w0 hr hl hbits
    rw [DeserializeBoolVector_eq cs t s1 w0 n hr hl]
    have e : (List.range n).map (bitAt s1) = (List.range n).map (bitAt s0) := by
      apply List.map_congr_left
      intro j hj
      have hj2 : j < n := List.mem_range.mp hj
      have := hbits (j / 8) (j % 8) (Nat.mod_lt _ (by decide)) (by omega)
      simpa [bitAt] using this
    rw [e]

/-- Witness of C3: the compact size 9, the octets `0b11111101` and `0b11111111` (seven unused
high bits set) and one foreign octet. -/
theorem C3_decode_arbitrary_stream_witness :
    ∃ v : List Bool,
      DeserializeBoolVector bitcoinCompactSize [9, 253, 255, 99] []
          = .ok ([253, 255, 99].drop ((9 + 7) / 8), v, 9 - v.count true)
        ∧ v.length = 9
        ∧ (∀ i k, k < 8 → 8 * i + k < 9 →
            v.getD (8 * i + k) false = (([253, 255, 99] : Stream).getD i 0).testBit k)
        ∧ (∀ (t s1 : Stream) (w0 : List Bool),
            bitcoinCompactSize.ReadCompactSize t = some (9, s1) →
            (9 + 7) / 8 ≤ s1.length →
            (∀ i k, k < 8 → 8 * i + k < 9 →
              (s1.getD i 0).testBit k = (([253, 255, 99] : Stream).getD i 0).testBit k) →
            DeserializeBoolVector bitcoinCompactSize t w0
              = .ok (s1.drop ((9 + 7) / 8), v, 9 - v.count true)) :=
  C3_decode_arbitrary_stream bitcoinCompactSize [9, 253, 255, 99] [253, 255, 99] [] 9 rfl
    (by decide)

/-- C4 (coin spend postcondition). For every coin and every index `n` with `spent[n] == false`,
`spend_exhausts(n)` succeeds, sets `spent[n]`, leaves every other entry of `spent`, its length and
the transaction handle unchanged, decrements the `uint32_t` field `spendable` by one (from a
positive value to the value one less; from zero the unsigned decrement wraps to `2^32 - 1`), and
returns true exactly when `spendable` is zero after the decrement. -/
theorem C4_spend_postcondition (c : coin) (n : Int) (h0 : 0 ≤ n)
    (hs : c.spent[n.toNat]? = some false) :
    ∃ (c' : coin) (e : Bool), c.spend_exhausts n = .ok (c', e)
      ∧ c'.spent[n.toNat]? = some true
      ∧ c'.spent.length = c.spent.length
      ∧ (∀ j : Nat, j ≠ n.toNat → c'.spent[j]? = c.spent[j]?)
      ∧ c'.x = c.x
      ∧ c'.spendable = (c.spendable + 2 ^ 32 - 1) % 2 ^ 32
      ∧ (0 < c.spendable → c.spendable < 2 ^ 32 → c'.spendable + 1 = c.spendable)
      ∧ (e = true ↔ c'.spendable = 0) := by
  obtain ⟨hn, hv⟩ := (getElem?_eq_some_false_iff c.spent n.toNat).mp hs
  refine ⟨_, _, coin.spend_exhausts_eq c n h0 hn hv, ?_, ?_, ?_, rfl, rfl, ?_, ?_⟩
  · simp [hn]
  · simp
  · intro j hj
    simp only []
    rw [List.getElem?_set_ne (fun e => hj e.symm)]
  · intro h1 h2
    simp only []
    omega
  · simp

/-- Witness of C4: spending output 1 of a coin with flags `[true, false, false]` and two
spendable outputs. -/
theorem C4_spend_postcondition_witness :
    ∃ (c' : coin) (e : Bool),
      coin.spend_exhausts ⟨⟨5, [], [⟨true⟩, ⟨false⟩, ⟨false⟩], true⟩, [true, false, false], 2⟩ 1
          = .ok (c', e)
      ∧ c'.spent[(1 : Int).toNat]? = some true
      ∧ c'.spent.length = [true, false, false].length
      ∧ (∀ j : Nat, j ≠ (1 : Int).toNat → c'.spent[j]? = [true, false, false][j]?)
      ∧ c'.x = ⟨5, [], [⟨true⟩, ⟨false⟩, ⟨false⟩], true⟩
      ∧ c'.spendable = (2 + 2 ^ 32 - 1) % 2 ^ 32
      ∧ (0 < 2 → 2 < 2 ^ 32 → c'.spendable + 1 = 2)
      ∧ (e = true ↔ c'.spendable = 0) :=
  C4_spend_postcondition ⟨⟨5, [], [⟨true⟩, ⟨false⟩, ⟨false⟩], true⟩, [true, false, false], 2⟩ 1
    (by decide) (by decide)

/-- C5, counterexample. A transaction with `2^32` outputs, none of them provably unspendable,
gives a coin whose `uint32_t spendable` has wrapped to 0, not the number of spendable outputs. -/
theorem C5_construct_counterexample :
    (coin.construct wideTx).spendable = 0 ∧ wideTx.spendable_outputs = 2 ^ 32
      ∧ (coin.construct wideTx).spendable ≠ wideTx.spendable_outputs := by
  rw [wideTx_construct, wideTx_spendable_outputs]
  exact ⟨rfl, rfl, by decide⟩

/-- C5 (coin construction), as amended. For every transaction, the coin built from it holds
that transaction, has a `spent` sequence of the length of the output list with `spent[i]` equal to
`provably_unspendable(output i)`, and its `spendable` is the number of outputs that are not
provably unspendable reduced modulo `2^32`: that number itself whenever it is below `2^32`. -/
theorem C5_construct (x : tx) :
    (coin.construct x).x = x
      ∧ (coin.construct x).spent.length = x.vout.length
      ∧ (coin.construct x).spent = x.vout.map (fun o => o.provably_unspendable)
      ∧ (∀ (i : Nat) (o : txout), x.vout[i]? = some o → (coin.construct x).spent[i]? = some o.provably_unspendable)
      ∧ (coin.construct x).spendable = x.spendable_outputs % 2 ^ 32
      ∧ (x.spendable_outputs < 2 ^ 32 → (coin.construct x).spendable = x.spendable_outputs) := by
  rw [coin.construct_eq]
  refine ⟨rfl, by simp, rfl, ?_, rfl, ?_⟩
  · intro i o h
    simp [h]
  · intro h
    exact Nat.mod_eq_of_lt h

/-- Witness of C5: a transaction with three outputs, the second provably unspendable. -/
theorem C5_construct_witness :
    (coin.construct ⟨5, [], [⟨false⟩, ⟨true⟩, ⟨false⟩], true⟩).spendable
      = tx.spendable_outputs ⟨5, [], [⟨false⟩, ⟨true⟩, ⟨false⟩], true⟩ :=
  (C5_construct ⟨5, [], [⟨false⟩, ⟨true⟩, ⟨false⟩], true⟩).2.2.2.2.2 (by decide)

/-- C6, counterexample. The coin built from a transaction with `2^32` spendable outputs (and no
spend yet) has `spendable == 0` although `2^32` flags are false, and spending output 0 of it
succeeds with the decrement wrapping from 0 to `2^32 - 1`. -/
theorem C6_coin_invariant_counterexample :
    (coin.construct wideTx).spend_all [] = .ok (coin.construct wideTx)
      ∧ (coin.construct wideTx).spendable = 0
      ∧ (coin.construct wideTx).spent.count false = 2 ^ 32
      ∧ ∃ c', (coin.construct wideTx).spend_exhausts 0 = .ok (c', false)
          ∧ c'.spendable = 2 ^ 32 - 1 := by
  refine ⟨rfl, ?_, ?_, ?_⟩
  · rw [wideTx_construct]
  · rw [coin.construct_inv, wideTx_spendable_outputs]
  · rw [wideTx_construct]
    refine ⟨_, coin.spend_exhausts_eq _ 0 (Int.le_refl 0) ?_ ?_, rfl⟩
    · simp only [List.length_replicate]
      exact Nat.pos_pow_of_pos 32 (by decide)
    · have h32 : 0 < 2 ^ 32 := Nat.pos_pow_of_pos 32 (by decide)
      simp only [Int.toNat_zero]
      rw [vget, List.getD_eq_getElem?_getD, List.getElem?_replicate_of_lt h32]
      rfl

/-- C6 (coin invariant), as amended. For every transaction with fewer than `2^32` outputs that
are not provably unspendable, every coin obtained from its construction by a finite sequence of
successful `spend_exhausts` calls, each at an index inside the output list
(`0 <= n < len(spent)`), still holds that transaction, has `len(spent)` equal to the number of
outputs and `spendable` equal to the number of false flags; so a further successful spend at such
an index finds `spendable` positive and its decrement does not wrap. A call at an index outside
`spent`, which the source does not check and which is undefined behaviour, is left out. -/
theorem C6_coin_invariant (x : tx) (ns : List Int) (c : coin)
    (hx : x.spendable_outputs < 2 ^ 32)
    (hns : ∀ n ∈ ns, 0 ≤ n ∧ n < (x.vout.length : Int))
    (h : (coin.construct x).spend_all ns = .ok c) :
    c.x = x ∧ c.spent.length = x.vout.length ∧ c.spendable = c.spent.count false
      ∧ (∀ n c' e, 0 ≤ n → n < (x.vout.length : Int) → c.spend_exhausts n = .ok (c', e) →
          0 < c.spendable ∧ c'.spendable + 1 = c.spendable) := by
  have hlen : (coin.construct x).spent.length = x.vout.length := by
    rw [coin.construct_spent, List.length_map]
  have hns' : ∀ n ∈ ns, 0 ≤ n ∧ n < ((coin.construct x).spent.length : Int) := by
    rw [hlen]
    exact hns
  obtain ⟨i1, i2, i3⟩ := coin.spend_all_within ns hns' h (coin.construct_invariant x hx)
  refine ⟨?_, ?_, i1.1, ?_⟩
  · rw [i2, coin.construct_x]
  · rw [i3, hlen]
  · intro n c' e hn0 hn1 hs
    have hn2 : n < (c.spent.length : Int) := by
      rw [i3, hlen]
      exact hn1
    obtain ⟨_, a2, a3, _⟩ := coin.spend_exhausts_within_invariant hn0 hn2 hs i1
    exact ⟨a2, a3⟩

/-- Witness of C6: a coin with flags `[false, true, false]` after spending outputs 2 and 0. -/
theorem C6_coin_invariant_witness :
    (⟨⟨5, [], [⟨false⟩, ⟨true⟩, ⟨false⟩], true⟩, [true, true, true], 0⟩ : coin).spent.length = 3
      ∧ (0 : Nat) = ([true, true, true] : List Bool).count false :=
  have h := C6_coin_invariant ⟨5, [], [⟨false⟩, ⟨true⟩, ⟨false⟩], true⟩ [2, 0]
    ⟨⟨5, [], [⟨false⟩, ⟨true⟩, ⟨false⟩], true⟩, [true, true, true], 0⟩ (by decide) (by decide)
    (by decide)
  ⟨h.2.1, h.2.2.1⟩

/-- C7 (spend monotonicity). Once `spend_exhausts(i)` has succeeded on a coin, then after any
finite sequence of further successful spends a new `spend_exhausts(i)` fails on
`assert(!spent[i])`; every entry of `spent` that was true stays true, through one spend and
through any sequence of them. -/
theorem C7_spend_monotonic (c c1 c2 : coin) (i : Int) (e : Bool) (ns : List Int)
    (h1 : c.spend_exhausts i = .ok (c1, e)) (h2 : c1.spend_all ns = .ok c2) :
    c2.spend_exhausts i = .error .AlreadySpent
      ∧ c1.spent[i.toNat]? = some true
      ∧ (∀ j : Nat, c.spent[j]? = some true → c1.spent[j]? = some true)
      ∧ (∀ j : Nat, c1.spent[j]? = some true → c2.spent[j]? = some true) := by
  obtain ⟨a1, a2, _, a4, _⟩ := coin.spend_exhausts_ok h1
  obtain ⟨_, b2, b3⟩ := coin.spend_exhausts_keeps h1
  obtain ⟨_, d2, d3⟩ := coin.spend_all_keeps ns h2
  have hi : c1.spent[i.toNat]? = some true := by
    subst a4
    simp [a2]
  refine ⟨?_, hi, ?_, ?_⟩
  · apply coin.spend_exhausts_spent a1 (by omega)
    exact d3 _ ((vget_eq_true_iff _ _).mpr hi)
  · intro j hj
    exact (vget_eq_true_iff _ _).mp (b3 j ((vget_eq_true_iff _ _).mpr hj))
  · intro j hj
    exact (vget_eq_true_iff _ _).mp (d3 j ((vget_eq_true_iff _ _).mpr hj))

/-- Witness of C7: output 0 is spent, then output 2, and a second spend of output 0 fails. -/
theorem C7_spend_monotonic_witness :
    coin.spend_exhausts ⟨⟨5, [], [⟨false⟩, ⟨true⟩, ⟨false⟩], true⟩, [true, true, true], 0⟩ 0
      = .error .AlreadySpent :=
  (C7_spend_monotonic ⟨⟨5, [], [⟨false⟩, ⟨true⟩, ⟨false⟩], true⟩, [false, true, false], 2⟩
    ⟨⟨5, [], [⟨false⟩, ⟨true⟩, ⟨false⟩], true⟩, [true, true, false], 1⟩
    ⟨⟨5, [], [⟨false⟩, ⟨true⟩, ⟨false⟩], true⟩, [true, true, true], 0⟩
    0 false [2] (by decide) (by decide)).1

/-- C8 (missing prevout is fatal). For a transaction that is not coinbase, if some input
references an identifier that is not a key of the view before the call, `insert` ends in a
violation and not with a view; when it is the first input, the violation is the exception of
`coin_map.at`. For a coinbase transaction the inputs are not looked up: `insert` is the "add new
outputs" step on the untouched map, and its only possible violation is the duplicate-key
assertion. -/
theorem C8_missing_prevout (v : view) (x : tx) :
    (x.IsCoinBase = false →
        (∃ a ∈ x.vin, coin_map_t.count v.coin_map a.prevout.hash = 0) →
        ∃ e, v.insert x = .error e)
      ∧ (x.IsCoinBase = false → ∀ (a : txin) (vin : List txin), x.vin = a :: vin →
          coin_map_t.count v.coin_map a.prevout.hash = 0 → v.insert x = .error .MissingCoin)
      ∧ (x.IsCoinBase = true →
          v.insert x = view.insert.add_outputs v.coin_map x
            ∧ ∀ e, v.insert x = .error e → e = .DuplicateKey) := by
  refine ⟨?_, ?_, ?_⟩
  · intro hcb hex
    cases h : v.insert x with
    | error e => exact ⟨e, rfl⟩
    | ok v' =>
      exfalso
      obtain ⟨m, hm, _⟩ := view.insert_ok h
      rw [hcb] at hm
      simp only [Bool.false_eq_true, if_false] at hm
      obtain ⟨a, ha, ha0⟩ := hex
      obtain ⟨c, hc⟩ := view.insert.spend_inputs_present x.vin hm a ha
      rw [(coin_map_t.count_eq_zero_iff _ _).mp ha0] at hc
      exact Option.noConfusion hc
  · intro hcb a vin hvin ha0
    rw [view.insert_not_coinbase v x hcb, hvin]
    unfold view.insert.spend_inputs coin_map_t.at
    rw [(coin_map_t.count_eq_zero_iff _ _).mp ha0]
  · intro hcb
    rw [view.insert_coinbase v x hcb]
    exact ⟨rfl, fun e he => view.insert.add_outputs_error he⟩

/-- Witness of C8: a transaction spending output 0 of transaction 10 is inserted into the empty
view. -/
theorem C8_missing_prevout_witness :
    ∃ e, view.insert ⟨[]⟩ ⟨7, [⟨⟨10, 0⟩⟩], [⟨false⟩], false⟩ = .error e :=
  (C8_missing_prevout ⟨[]⟩ ⟨7, [⟨⟨10, 0⟩⟩], [⟨false⟩], false⟩).1 rfl
    ⟨⟨⟨10, 0⟩⟩, List.mem_singleton.mpr rfl, rfl⟩

/-- C9 (exhaustion pruning). Let `T` be a transaction that is not coinbase and whose `insert`
succeeds, and `R` a key of the view before the call, different from the identifier of `T`, whose
coin satisfies the coin invariant. If some input of `T` references `R` and every output of `R`
that is still unspent is spent by an input of `T`, then `R` is not a key of the view after the
call, and `get(R)` on it prints the missing key and fails its assertion. -/
theorem C9_exhaustion_pruning (v v' : view) (x : tx) (R : uint256) (cR : coin)
    (hcb : x.IsCoinBase = false) (hins : v.insert x = .ok v')
    (hR : coin_map_t.find v.coin_map R = some cR) (hinv : cR.invariant) (hne : R ≠ x.hash)
    (href : ∃ a ∈ x.vin, a.prevout.hash = R)
    (hcov : ∀ i : Nat, cR.spent[i]? = some false →
      ∃ a ∈ x.vin, a.prevout.hash = R ∧ int_of_uint32 a.prevout.n = (i : Int)) :
    coin_map_t.count v'.coin_map R = 0
      ∧ v'.get R = ([Diagnostic.MISSING_TXID R], .error .NotFound) := by
  obtain ⟨m, hm, hadd⟩ := view.insert_ok hins
  rw [hcb] at hm
  simp only [Bool.false_eq_true, if_false] at hm
  have hmR : coin_map_t.find m R = none :=
    view.insert.spend_inputs_exhausts x.vin R cR hm hR hinv href hcov
  have hv : coin_map_t.find v'.coin_map R = none := by
    rcases view.insert.add_outputs_ok hadd with ⟨_, h2⟩ | ⟨_, _, h3⟩
    · rw [h2]
      exact hmR
    · rw [h3, coin_map_t.find_assign, if_neg hne]
      exact hmR
  exact ⟨(coin_map_t.count_eq_zero_iff _ _).mpr hv, view.get_absent v' R hv⟩

/-- Witness of C9: the view holds transaction 10 with output 1 unspent and transaction 7 with
output 0 unspent; the inserted transaction spends both and has no spendable output. -/
theorem C9_exhaustion_pruning_witness :
    coin_map_t.count (view.mk []).coin_map 10 = 0
      ∧ (view.mk []).get 10 = ([Diagnostic.MISSING_TXID 10], .error .NotFound) :=
  C9_exhaustion_pruning
    ⟨[(7, ⟨⟨7, [⟨⟨10, 0⟩⟩], [⟨false⟩, ⟨true⟩], false⟩, [false, true], 1⟩),
      (10, ⟨⟨10, [], [⟨false⟩, ⟨false⟩], true⟩, [true, false], 1⟩)]⟩
    ⟨[]⟩ ⟨8, [⟨⟨10, 1⟩⟩, ⟨⟨7, 0⟩⟩], [⟨true⟩], false⟩ 10
    ⟨⟨10, [], [⟨false⟩, ⟨false⟩], true⟩, [true, false], 1⟩
    rfl (by decide) (by decide) ⟨by decide, by decide⟩ (by decide)
    ⟨⟨⟨10, 1⟩⟩, by decide, rfl⟩
    (by
      intro i hi
      have h1 : i = 1 := by
        match i, hi with
        | 0, h => exact absurd h (by decide)
        | 1, _ => rfl
        | k + 2, h => exact absurd h (by simp)
      subst h1
      exact ⟨⟨⟨10, 1⟩⟩, by decide, rfl, by decide⟩)

/-- C10, counterexample. The view holds transaction 5 with one unspent output; a transaction with
no outputs that spends it is inserted successfully, and key 5 is gone: the key set has changed. -/
theorem C10_all_unspendable_counterexample :
    (∀ o ∈ (⟨7, [⟨⟨5, 0⟩⟩], [], false⟩ : tx).vout, o.provably_unspendable = true)
      ∧ view.insert ⟨[(5, ⟨⟨5, [], [⟨false⟩], true⟩, [false], 1⟩)]⟩ ⟨7, [⟨⟨5, 0⟩⟩], [], false⟩
          = .ok ⟨[]⟩
      ∧ coin_map_t.count [(5, ⟨⟨5, [], [⟨false⟩], true⟩, [false], 1⟩)] 5 = 1
      ∧ coin_map_t.count (view.mk []).coin_map 5 = 0 := by
  refine ⟨?_, by decide, by decide, by decide⟩
  intro o ho
  exact absurd ho (List.not_mem_nil o)

/-- C10 (all-unspendable skip), as amended. When every output of a transaction is provably
unspendable (a transaction without outputs included), a successful `insert` creates no entry:
every key of the view after the call was a key before it, so none is created for the
transaction, and the map after the call is the map left by spending the inputs. A key is lost
only if the transaction is not coinbase and one of its inputs references it; for a coinbase
transaction the map, hence the key set, is unchanged. -/
theorem C10_all_unspendable (v v' : view) (x : tx)
    (hall : ∀ o ∈ x.vout, o.provably_unspendable = true) (hins : v.insert x = .ok v') :
    (∀ k, coin_map_t.count v'.coin_map k = 1 → coin_map_t.count v.coin_map k = 1)
      ∧ (∀ k, coin_map_t.count v.coin_map k = 1 → coin_map_t.count v'.coin_map k = 0 →
          x.IsCoinBase = false ∧ ∃ a ∈ x.vin, a.prevout.hash = k)
      ∧ (x.IsCoinBase = false → view.insert.spend_inputs x.vin v.coin_map = .ok v'.coin_map)
      ∧ (x.IsCoinBase = true → v' = v) := by
  obtain ⟨m, hm, hadd⟩ := view.insert_ok hins
  have h0 := coin.construct_all_unspendable x hall
  have hv : v'.coin_map = m := by
    rcases view.insert.add_outputs_ok hadd with ⟨_, h2⟩ | ⟨h1, _, _⟩
    · exact h2
    · exact absurd h0 h1
  cases hcb : x.IsCoinBase with
  | true =>
    rw [hcb] at hm
    simp only [if_true] at hm
    have hvv : v' = v := by
      cases v' with
      | mk m1 =>
        cases v with
        | mk m2 =>
          simp only [] at hv hm
          rw [hv, hm]
    refine ⟨?_, ?_, ?_, fun _ => hvv⟩
    · intro k hk
      rw [hvv] at hk
      exact hk
    · intro k h1 h2
      rw [hvv, h1] at h2
      exact absurd h2 (by decide)
    · intro h
      exact Bool.noConfusion h
  | false =>
    rw [hcb] at hm
    simp only [Bool.false_eq_true, if_false] at hm
    rw [← hv] at hm
    refine ⟨?_, ?_, fun _ => hm, ?_⟩
    · intro k hk
      by_contra hc
      have hnone : coin_map_t.find v.coin_map k = none := by
        cases hf : coin_map_t.find v.coin_map k with
        | none => rfl
        | some c => exact absurd ((coin_map_t.count_eq_one_iff _ _).mpr ⟨c, hf⟩) hc
      have := view.insert.spend_inputs_absent x.vin k hm hnone
      rw [(coin_map_t.count_eq_zero_iff _ _).mpr this] at hk
      exact absurd hk (by decide)
    · intro k h1 h2
      refine ⟨rfl, ?_⟩
      by_contra hc
      have hfr := view.insert.spend_inputs_frame x.vin k hm
        (fun a ha he => hc ⟨a, ha, he⟩)
      rw [(coin_map_t.count_eq_zero_iff _ _).mp h2] at hfr
      rw [(coin_map_t.count_eq_zero_iff _ _).mpr hfr.symm] at h1
      exact absurd h1 (by decide)
    · intro h
      exact Bool.noConfusion h

/-- Witness of C10: transaction 5 has two unspent outputs; a transaction whose only output is
provably unspendable spends output 0 of it. Key 5 stays and no key is added. -/
theorem C10_all_unspendable_witness :
    (∀ k, coin_map_t.count
          (view.mk [(5, ⟨⟨5, [], [⟨false⟩, ⟨false⟩], true⟩, [true, false], 1⟩)]).coin_map k = 1 →
        coin_map_t.count
          (view.mk [(5, ⟨⟨5, [], [⟨false⟩, ⟨false⟩], true⟩, [false, false], 2⟩)]).coin_map k = 1)
      ∧ view.insert.spend_inputs [⟨⟨5, 0⟩⟩]
          [(5, ⟨⟨5, [], [⟨false⟩, ⟨false⟩], true⟩, [false, false], 2⟩)]
          = .ok [(5, ⟨⟨5, [], [⟨false⟩, ⟨false⟩], true⟩, [true, false], 1⟩)] :=
  have h := C10_all_unspendable
    ⟨[(5, ⟨⟨5, [], [⟨false⟩, ⟨false⟩], true⟩, [false, false], 2⟩)]⟩
    ⟨[(5, ⟨⟨5, [], [⟨false⟩, ⟨false⟩], true⟩, [true, false], 1⟩)]⟩
    ⟨7, [⟨⟨5, 0⟩⟩], [⟨true⟩], false⟩ (by decide) (by decide)
  ⟨h.1, h.2.2.1 rfl⟩

/-- C11, counterexample. The view holds an entry under the identifier of block 91842, with one
of its two outputs spent; a coinbase transaction with that identifier and `2^32` spendable outputs
is inserted. Its coin has `spendable == 0`, so `insert` returns before the assignment: the call
succeeds, the view is unchanged and the entry is still the old coin, not the coin of the inserted
transaction. -/
theorem C11_duplicate_coinbase_counterexample :
    view.dupe_coinbase_tx wideDupeTx.hash = true ∧ wideDupeTx.IsCoinBase = true
      ∧ 0 < wideDupeTx.spendable_outputs
      ∧ view.insert
          ⟨[(dupe_hash_91842, ⟨⟨dupe_hash_91842, [], [⟨false⟩, ⟨false⟩], true⟩, [true, false], 1⟩)]⟩
          wideDupeTx
        = .ok
          ⟨[(dupe_hash_91842, ⟨⟨dupe_hash_91842, [], [⟨false⟩, ⟨false⟩], true⟩, [true, false], 1⟩)]⟩
      ∧ coin_map_t.find
          [(dupe_hash_91842, ⟨⟨dupe_hash_91842, [], [⟨false⟩, ⟨false⟩], true⟩, [true, false], 1⟩)]
          dupe_hash_91842
        ≠ some (coin.construct wideDupeTx) := by
  refine ⟨by decide, rfl, ?_, ?_, ?_⟩
  · rw [wideDupeTx_spendable_outputs]
    exact Nat.pos_pow_of_pos 32 (by decide)
  · rw [view.insert_coinbase _ _ rfl]
    apply view.insert.add_outputs_skip
    rw [coin.construct_spendable, wideDupeTx_spendable_outputs, Nat.mod_self]
  · intro h
    have h1 : coin_map_t.find
        [(dupe_hash_91842, ⟨⟨dupe_hash_91842, [], [⟨false⟩, ⟨false⟩], true⟩, [true, false], 1⟩)]
        dupe_hash_91842
          = some ⟨⟨dupe_hash_91842, [], [⟨false⟩, ⟨false⟩], true⟩, [true, false], 1⟩ := by
      simp [coin_map_t.find]
    rw [h1] at h
    have h3 := congrArg (fun c : coin => c.spendable) (Option.some.inj h)
    simp only [coin.construct_spendable, wideDupeTx_spendable_outputs, Nat.mod_self] at h3
    exact absurd h3 (by decide)

/-- C11 (duplicate-coinbase exception), as amended. For every view (with or without an entry
under `h`), inserting a coinbase transaction whose identifier `h` is one of the two hard-coded
identifiers and whose number of spendable outputs is not a multiple of `2^32` (so that the
`uint32_t spendable` of its coin is not zero) succeeds and overwrites: afterwards the entry under
`h` is the freshly constructed coin of the inserted transaction, with the unspendable
classification as its spent flags, and every other entry is as before. -/
theorem C11_duplicate_coinbase (v : view) (x : tx)
    (hd : view.dupe_coinbase_tx x.hash = true) (hcb : x.IsCoinBase = true)
    (hs : x.spendable_outputs % 2 ^ 32 ≠ 0) :
    ∃ v', v.insert x = .ok v'
      ∧ coin_map_t.find v'.coin_map x.hash = some (coin.construct x)
      ∧ (coin.construct x).spent = x.vout.map (fun o => o.provably_unspendable)
      ∧ (coin.construct x).x = x
      ∧ (∀ k, k ≠ x.hash → coin_map_t.find v'.coin_map k = coin_map_t.find v.coin_map k) := by
  have h0 : (coin.construct x).spendable ≠ 0 := by
    rw [coin.construct_spendable]
    exact hs
  refine ⟨⟨coin_map_t.assign v.coin_map x.hash (coin.construct x)⟩, ?_, ?_,
    coin.construct_spent x, coin.construct_x x, ?_⟩
  · rw [view.insert_coinbase v x hcb]
    exact view.insert.add_outputs_assign _ x h0 (Or.inl hd)
  · simp [coin_map_t.find_assign]
  · intro k hk
    simp [coin_map_t.find_assign, hk]

/-- Witness of C11: the entry under the identifier of block 91842 has both outputs spent down to
one; a coinbase transaction with that identifier and two spendable outputs is inserted. -/
theorem C11_duplicate_coinbase_witness :
    ∃ v', view.insert
          ⟨[(dupe_hash_91842, ⟨⟨dupe_hash_91842, [], [⟨false⟩, ⟨false⟩], true⟩, [true, false], 1⟩)]⟩
          ⟨dupe_hash_91842, [], [⟨false⟩, ⟨true⟩, ⟨false⟩], true⟩ = .ok v'
      ∧ coin_map_t.find v'.coin_map dupe_hash_91842
          = some (coin.construct ⟨dupe_hash_91842, [], [⟨false⟩, ⟨true⟩, ⟨false⟩], true⟩)
      ∧ (coin.construct ⟨dupe_hash_91842, [], [⟨false⟩, ⟨true⟩, ⟨false⟩], true⟩).spent
          = [false, true, false]
      ∧ (coin.construct ⟨dupe_hash_91842, [], [⟨false⟩, ⟨true⟩, ⟨false⟩], true⟩).x
          = ⟨dupe_hash_91842, [], [⟨false⟩, ⟨true⟩, ⟨false⟩], true⟩
      ∧ (∀ k, k ≠ dupe_hash_91842 → coin_map_t.find v'.coin_map k
          = coin_map_t.find
              [(dupe_hash_91842,
                ⟨⟨dupe_hash_91842, [], [⟨false⟩, ⟨false⟩], true⟩, [true, false], 1⟩)] k) :=
  C11_duplicate_coinbase
    ⟨[(dupe_hash_91842, ⟨⟨dupe_hash_91842, [], [⟨false⟩, ⟨false⟩], true⟩, [true, false], 1⟩)]⟩
    ⟨dupe_hash_91842, [], [⟨false⟩, ⟨true⟩, ⟨false⟩], true⟩ (by decide) rfl (by decide)

/-- C12, counterexample. Identifier 5 is a key of the view and is not one of the two hard-coded
identifiers. A coinbase transaction with identifier 5 whose only output is provably unspendable
is inserted successfully (the view is unchanged); and a transaction with identifier 5 that spends
the last unspent output of entry 5 is inserted successfully in place of the pruned entry. -/
theorem C12_duplicate_key_counterexample :
    view.dupe_coinbase_tx 5 = false
      ∧ coin_map_t.count [(5, ⟨⟨5, [], [⟨false⟩], true⟩, [false], 1⟩)] 5 = 1
      ∧ view.insert ⟨[(5, ⟨⟨5, [], [⟨false⟩], true⟩, [false], 1⟩)]⟩ ⟨5, [], [⟨true⟩], true⟩
          = .ok ⟨[(5, ⟨⟨5, [], [⟨false⟩], true⟩, [false], 1⟩)]⟩
      ∧ view.insert ⟨[(5, ⟨⟨5, [], [⟨false⟩], true⟩, [false], 1⟩)]⟩
          ⟨5, [⟨⟨5, 0⟩⟩], [⟨false⟩], false⟩
          = .ok ⟨[(5, ⟨⟨5, [⟨⟨5, 0⟩⟩], [⟨false⟩], false⟩, [false], 1⟩)]⟩ := by
  decide

/-- C12 (duplicate key is fatal), as amended. Let the identifier of a transaction not be one of
the two hard-coded identifiers and let its coin have `spendable != 0` (at least one spendable
output, their number not a multiple of `2^32`). If the identifier is a key of the map at the
moment the new outputs are added, `insert` fails on the duplicate-key assertion. That is the case
for a coinbase transaction whose identifier is a key of the view, and for any other transaction
whose identifier is a key of the view that none of its inputs references: for the latter `insert`
never completes, and the violation is the duplicate-key assertion whenever the inputs are spent
without violation. -/
theorem C12_duplicate_key (v : view) (x : tx)
    (hd : view.dupe_coinbase_tx x.hash = false) (hs : (coin.construct x).spendable ≠ 0) :
    (x.IsCoinBase = true → coin_map_t.count v.coin_map x.hash = 1 →
        v.insert x = .error .DuplicateKey)
      ∧ (x.IsCoinBase = false → ∀ m, view.insert.spend_inputs x.vin v.coin_map = .ok m →
          coin_map_t.count m x.hash = 1 → v.insert x = .error .DuplicateKey)
      ∧ (x.IsCoinBase = false → coin_map_t.count v.coin_map x.hash = 1 →
          (∀ a ∈ x.vin, a.prevout.hash ≠ x.hash) →
          (∃ e, v.insert x = .error e)
            ∧ ∀ m, view.insert.spend_inputs x.vin v.coin_map = .ok m →
                v.insert x = .error .DuplicateKey) := by
  have hgen : x.IsCoinBase = false → ∀ m, view.insert.spend_inputs x.vin v.coin_map = .ok m →
      coin_map_t.count m x.hash = 1 → v.insert x = .error .DuplicateKey := by
    intro hcb m hm hk
    rw [view.insert_not_coinbase v x hcb, hm]
    exact view.insert.add_outputs_duplicate m x hs hd hk
  refine ⟨?_, hgen, ?_⟩
  · intro hcb hk
    rw [view.insert_coinbase v x hcb]
    exact view.insert.add_outputs_duplicate _ x hs hd hk
  · intro hcb hk hself
    have hkeep : ∀ m, view.insert.spend_inputs x.vin v.coin_map = .ok m →
        coin_map_t.count m x.hash = 1 := by
      intro m hm
      obtain ⟨c, hc⟩ := (coin_map_t.count_eq_one_iff _ _).mp hk
      apply (coin_map_t.count_eq_one_iff _ _).mpr
      exact ⟨c, by rw [view.insert.spend_inputs_frame x.vin x.hash hm hself]; exact hc⟩
    refine ⟨?_, fun m hm => hgen hcb m hm (hkeep m hm)⟩
    cases hsp : view.insert.spend_inputs x.vin v.coin_map with
    | error e =>
      refine ⟨e, ?_⟩
      rw [view.insert_not_coinbase v x hcb, hsp]
    | ok m => exact ⟨_, hgen hcb m hsp (hkeep m hsp)⟩

/-- Witness of C12: identifier 5 is a key of the view; a coinbase transaction with identifier 5
and one spendable output is inserted. -/
theorem C12_duplicate_key_witness :
    view.insert ⟨[(5, ⟨⟨5, [], [⟨false⟩], true⟩, [false], 1⟩)]⟩ ⟨5, [], [⟨false⟩], true⟩
      = .error .DuplicateKey :=
  (C12_duplicate_key ⟨[(5, ⟨⟨5, [], [⟨false⟩], true⟩, [false], 1⟩)]⟩ ⟨5, [], [⟨false⟩], true⟩
    (by decide) (by decide)).1 rfl (by decide)

/-- C14 (lookup). `get(k)` returns a transaction exactly when `k` is a key of the view; it is then
the transaction held by the coin stored under `k`, and nothing is printed. When `k` is absent one
line naming `k` is printed and the assertion fails. `get` is a `const` member: it returns no new
view, the view is the one it was called on. -/
theorem C14_lookup (v : view) (k : uint256) :
    ((∃ t, (v.get k).2 = .ok t) ↔ coin_map_t.count v.coin_map k = 1)
      ∧ (∀ c, coin_map_t.find v.coin_map k = some c → v.get k = ([], .ok c.x))
      ∧ (coin_map_t.find v.coin_map k = none →
          v.get k = ([Diagnostic.MISSING_TXID k], .error .NotFound))
      ∧ (coin_map_t.count v.coin_map k = 1 ∨ coin_map_t.find v.coin_map k = none) := by
  have hsome : ∀ c, coin_map_t.find v.coin_map k = some c → v.get k = ([], .ok c.x) := by
    intro c hc
    have h1 : coin_map_t.count v.coin_map k = 1 := (coin_map_t.count_eq_one_iff _ _).mpr ⟨c, hc⟩
    unfold view.get coin_map_t.at
    simp [h1, hc]
  refine ⟨?_, hsome, view.get_absent v k, ?_⟩
  · constructor
    · rintro ⟨t, ht⟩
      cases hf : coin_map_t.find v.coin_map k with
      | none =>
        rw [view.get_absent v k hf] at ht
        exact Except.noConfusion ht
      | some c => exact (coin_map_t.count_eq_one_iff _ _).mpr ⟨c, hf⟩
    · intro h1
      obtain ⟨c, hc⟩ := (coin_map_t.count_eq_one_iff _ _).mp h1
      exact ⟨c.x, by rw [hsome c hc]⟩
  · cases hf : coin_map_t.find v.coin_map k with
    | none => exact Or.inr rfl
    | some c => exact Or.inl ((coin_map_t.count_eq_one_iff _ _).mpr ⟨c, hf⟩)

/-- Witness of C14: looking up the key 10 of a view with the keys 7 and 10. -/
theorem C14_lookup_witness :
    view.get
        ⟨[(7, ⟨⟨7, [⟨⟨10, 0⟩⟩], [⟨false⟩, ⟨true⟩], false⟩, [false, true], 1⟩),
          (10, ⟨⟨10, [], [⟨false⟩, ⟨false⟩], true⟩, [true, false], 1⟩)]⟩ 10
      = ([], .ok ⟨10, [], [⟨false⟩, ⟨false⟩], true⟩) :=
  (C14_lookup
    ⟨[(7, ⟨⟨7, [⟨⟨10, 0⟩⟩], [⟨false⟩, ⟨true⟩], false⟩, [false, true], 1⟩),
      (10, ⟨⟨10, [], [⟨false⟩, ⟨false⟩], true⟩, [true, false], 1⟩)]⟩ 10).2.1
    ⟨⟨10, [], [⟨false⟩, ⟨false⟩], true⟩, [true, false], 1⟩ (by decide)

/-- C19 (no double spend inside one transaction). If the input list of a transaction that is not
coinbase holds the same prevout at two positions (`a` and, later, `b`), `insert` never completes.
When the inputs before `b` are spent without violation, the entry that `b` references has been
pruned, and `insert` ends with the exception of `coin_map.at`, or it is there with that output
already marked spent, and `insert` ends on `assert(!spent[n])`. -/
theorem C19_no_double_spend (v : view) (x : tx) (pre mid post : List txin) (a b : txin)
    (hcb : x.IsCoinBase = false) (hvin : x.vin = pre ++ a :: (mid ++ b :: post))
    (hab : a.prevout = b.prevout) :
    (∃ e, v.insert x = .error e)
      ∧ ∀ m1, view.insert.spend_inputs (pre ++ a :: mid) v.coin_map = .ok m1 →
          (coin_map_t.find m1 b.prevout.hash = none ∧ v.insert x = .error .MissingCoin)
            ∨ ((∃ c, coin_map_t.find m1 b.prevout.hash = some c
                  ∧ c.spent[(int_of_uint32 b.prevout.n).toNat]? = some true)
                ∧ v.insert x = .error .AlreadySpent) := by
  have hsplit : x.vin = (pre ++ a :: mid) ++ b :: post := by
    rw [hvin]
    simp
  have hins : v.insert x
      = match view.insert.spend_inputs (pre ++ a :: mid) v.coin_map with
        | .error e => .error e
        | .ok m1 =>
          match view.insert.spend_inputs (b :: post) m1 with
          | .error e => .error e
          | .ok m => view.insert.add_outputs m x := by
    rw [view.insert_not_coinbase v x hcb, hsplit, view.insert.spend_inputs_append]
    cases view.insert.spend_inputs (pre ++ a :: mid) v.coin_map <;> rfl
  have hsecond : ∀ m1, view.insert.spend_inputs (pre ++ a :: mid) v.coin_map = .ok m1 →
      (coin_map_t.find m1 b.prevout.hash = none ∧ v.insert x = .error .MissingCoin)
        ∨ ((∃ c, coin_map_t.find m1 b.prevout.hash = some c
              ∧ c.spent[(int_of_uint32 b.prevout.n).toNat]? = some true)
            ∧ v.insert x = .error .AlreadySpent) := by
    intro m1 hm1
    have hq : view.insert.consumed b.prevout m1 := by
      rw [view.insert.spend_inputs_append] at hm1
      cases hpre : view.insert.spend_inputs pre v.coin_map with
      | error e =>
        rw [hpre] at hm1
        exact Except.noConfusion hm1
      | ok m0 =>
        rw [hpre] at hm1
        rw [← hab]
        exact view.insert.consumed_after a mid hm1
    rcases view.insert.spend_inputs_consumed b post m1 hq with ⟨h1, h2⟩ | ⟨h1, h2⟩
    · left
      refine ⟨h1, ?_⟩
      rw [hins, hm1]
      simp only []
      rw [h2]
    · right
      refine ⟨h1, ?_⟩
      rw [hins, hm1]
      simp only []
      rw [h2]
  refine ⟨?_, hsecond⟩
  cases hm1 : view.insert.spend_inputs (pre ++ a :: mid) v.coin_map with
  | error e =>
    refine ⟨e, ?_⟩
    rw [hins, hm1]
  | ok m1 =>
    rcases hsecond m1 hm1 with ⟨_, h2⟩ | ⟨_, h2⟩
    · exact ⟨_, h2⟩
    · exact ⟨_, h2⟩

/-- Witness of C19: transaction 10 has two unspent outputs, and the inserted transaction spends
its output 0 twice, with a spend of output 1 in between. -/
theorem C19_no_double_spend_witness :
    ∃ e, view.insert ⟨[(10, ⟨⟨10, [], [⟨false⟩, ⟨false⟩, ⟨false⟩], true⟩, [false, false, false], 3⟩)]⟩
      ⟨7, [⟨⟨10, 0⟩⟩, ⟨⟨10, 1⟩⟩, ⟨⟨10, 0⟩⟩], [⟨false⟩], false⟩ = .error e :=
  (C19_no_double_spend
    ⟨[(10, ⟨⟨10, [], [⟨false⟩, ⟨false⟩, ⟨false⟩], true⟩, [false, false, false], 3⟩)]⟩
    ⟨7, [⟨⟨10, 0⟩⟩, ⟨⟨10, 1⟩⟩, ⟨⟨10, 0⟩⟩], [⟨false⟩], false⟩
    [] [⟨⟨10, 1⟩⟩] [] ⟨⟨10, 0⟩⟩ ⟨⟨10, 0⟩⟩ rfl rfl rfl).1

/-- C20 (insert frame). When `insert` of a transaction `T` succeeds, every key `k` other than the
identifier of `T` that, for `T` not coinbase, no input of `T` references, is present after the
call exactly when it was present before, and holds the same coin (same transaction, same spent
flags, same `spendable`). For a coinbase `T` this holds for every key other than its identifier,
whatever its inputs reference. -/
theorem C20_insert_frame (v v' : view) (x : tx) (k : uint256) (h : v.insert x = .ok v')
    (hk : k ≠ x.hash) (hin : x.IsCoinBase = false → ∀ a ∈ x.vin, a.prevout.hash ≠ k) :
    coin_map_t.find v'.coin_map k = coin_map_t.find v.coin_map k
      ∧ coin_map_t.count v'.coin_map k = coin_map_t.count v.coin_map k := by
  have hfind : coin_map_t.find v'.coin_map k = coin_map_t.find v.coin_map k := by
    obtain ⟨m, hm, hadd⟩ := view.insert_ok h
    have hmk : coin_map_t.find m k = coin_map_t.find v.coin_map k := by
      cases hcb : x.IsCoinBase with
      | true =>
        rw [hcb] at hm
        simp only [if_true] at hm
        rw [hm]
      | false =>
        rw [hcb] at hm
        simp only [Bool.false_eq_true, if_false] at hm
        exact view.insert.spend_inputs_frame x.vin k hm (hin hcb)
    rcases view.insert.add_outputs_ok hadd with ⟨_, h2⟩ | ⟨_, _, h3⟩
    · rw [h2]
      exact hmk
    · rw [h3, coin_map_t.find_assign, if_neg hk]
      exact hmk
  refine ⟨hfind, ?_⟩
  unfold coin_map_t.count
  rw [hfind]

/-- Witness of C20: the view holds transactions 5 and 10; a transaction spending output 0 of
transaction 10 is inserted, and the entry of transaction 5 is the same before and after. -/
theorem C20_insert_frame_witness :
    coin_map_t.find
        [(5, ⟨⟨5, [], [⟨false⟩], true⟩, [false], 1⟩),
          (7, ⟨⟨7, [⟨⟨10, 0⟩⟩], [⟨false⟩], false⟩, [false], 1⟩),
          (10, ⟨⟨10, [], [⟨false⟩, ⟨false⟩], true⟩, [true, false], 1⟩)] 5
      = coin_map_t.find
        [(5, ⟨⟨5, [], [⟨false⟩], true⟩, [false], 1⟩),
          (10, ⟨⟨10, [], [⟨false⟩, ⟨false⟩], true⟩, [false, false], 2⟩)] 5 :=
  (C20_insert_frame
    ⟨[(5, ⟨⟨5, [], [⟨false⟩], true⟩, [false], 1⟩),
      (10, ⟨⟨10, [], [⟨false⟩, ⟨false⟩], true⟩, [false, false], 2⟩)]⟩
    ⟨[(5, ⟨⟨5, [], [⟨false⟩], true⟩, [false], 1⟩),
      (7, ⟨⟨7, [⟨⟨10, 0⟩⟩], [⟨false⟩], false⟩, [false], 1⟩),
      (10, ⟨⟨10, [], [⟨false⟩, ⟨false⟩], true⟩, [true, false], 1⟩)]⟩
    ⟨7, [⟨⟨10, 0⟩⟩], [⟨false⟩], false⟩ 5 (by decide) (by decide)
    (fun _ a ha => by
      have h1 : a = ⟨⟨10, 0⟩⟩ := List.mem_singleton.mp ha
      rw [h1]
      decide)).1

/-- C15 (view equality). `A == B` returns true exactly when `A` and `B` have the same keys; the
flag and the lines printed are determined by the two key lists alone, whatever coins are stored
under the keys. -/
theorem C15_view_equality (a b : view) :
    ((a.operator_eq b).2 = true
        ↔ ∀ k, coin_map_t.count a.coin_map k = 1 ↔ coin_map_t.count b.coin_map k = 1)
      ∧ (∀ a' b' : view, coin_map_t.keys a'.coin_map = coin_map_t.keys a.coin_map →
          coin_map_t.keys b'.coin_map = coin_map_t.keys b.coin_map →
          a'.operator_eq b' = a.operator_eq b) := by
  constructor
  · rw [view.operator_eq_eq]
    simp only [Bool.and_eq_true, decide_eq_true_eq, coin_map_t.keys_missing_in_eq_nil,
      coin_map_t.count_eq_one_iff_mem]
    constructor
    · rintro ⟨h1, h2⟩ k
      exact ⟨h1 k, h2 k⟩
    · intro h
      exact ⟨fun k => (h k).mp, fun k => (h k).mpr⟩
  · intro a' b' ha hb
    rw [view.operator_eq_eq, view.operator_eq_eq]
    unfold coin_map_t.keys_missing_in
    rw [ha, hb]

/-- Witness of C15: two views with the keys 7 and 10 whose coins differ compare equal. -/
theorem C15_view_equality_witness :
    (view.operator_eq
        ⟨[(7, ⟨⟨7, [], [⟨false⟩], true⟩, [false], 1⟩),
          (10, ⟨⟨10, [], [⟨false⟩, ⟨false⟩], true⟩, [true, false], 1⟩)]⟩
        ⟨[(7, ⟨⟨7, [], [⟨false⟩, ⟨false⟩], true⟩, [false, true], 1⟩),
          (10, ⟨⟨10, [], [⟨false⟩, ⟨false⟩], true⟩, [false, false], 2⟩)]⟩).2 = true :=
  (C15_view_equality
    ⟨[(7, ⟨⟨7, [], [⟨false⟩], true⟩, [false], 1⟩),
      (10, ⟨⟨10, [], [⟨false⟩, ⟨false⟩], true⟩, [true, false], 1⟩)]⟩
    ⟨[(7, ⟨⟨7, [], [⟨false⟩, ⟨false⟩], true⟩, [false, true], 1⟩),
      (10, ⟨⟨10, [], [⟨false⟩, ⟨false⟩], true⟩, [false, false], 2⟩)]⟩).1.mpr
    (fun k => by
      rw [coin_map_t.count_eq_one_iff_mem, coin_map_t.count_eq_one_iff_mem]
      exact Iff.rfl)

/-- C18 (equality diagnostics). `A == B` prints an "other is missing" line for each key of `A`
that is not a key of `B`, in the order of `A`, then an "I am missing" line for each key of `B`
that is not a key of `A`, in the order of `B`, and nothing else; nothing is printed exactly when
the result is true. With the keys of each map strictly ascending, as in a `std::map`, each key
that is in exactly one of the two views gets exactly one line, of the kind that tells which view
lacks it, a shared key gets none, and the number of lines is the size of the symmetric difference
of the two key sets. -/
theorem C18_equality_diagnostics (a b : view) :
    (a.operator_eq b).1
        = (coin_map_t.keys_missing_in a.coin_map b.coin_map).map Diagnostic.other_is_missing
          ++ (coin_map_t.keys_missing_in b.coin_map a.coin_map).map Diagnostic.I_am_missing
      ∧ (∀ k, k ∈ coin_map_t.keys_missing_in a.coin_map b.coin_map
          ↔ coin_map_t.count a.coin_map k = 1 ∧ coin_map_t.count b.coin_map k = 0)
      ∧ (∀ k, k ∈ coin_map_t.keys_missing_in b.coin_map a.coin_map
          ↔ coin_map_t.count b.coin_map k = 1 ∧ coin_map_t.count a.coin_map k = 0)
      ∧ ((a.operator_eq b).1 = [] ↔ (a.operator_eq b).2 = true)
      ∧ (a.coin_map.ordered → b.coin_map.ordered →
          (∀ k, (a.operator_eq b).1.count (Diagnostic.other_is_missing k)
              = if coin_map_t.count a.coin_map k = 1 ∧ coin_map_t.count b.coin_map k = 0
                then 1 else 0)
            ∧ (∀ k, (a.operator_eq b).1.count (Diagnostic.I_am_missing k)
              = if coin_map_t.count b.coin_map k = 1 ∧ coin_map_t.count a.coin_map k = 0
                then 1 else 0)
            ∧ (∀ k, (a.operator_eq b).1.count (Diagnostic.MISSING_TXID k) = 0)
            ∧ (a.operator_eq b).1.length
              = (symmDiff (coin_map_t.keys a.coin_map).toFinset
                  (coin_map_t.keys b.coin_map).toFinset).card) := by
  have hmem : ∀ (m o : coin_map_t) (k : uint256), k ∈ coin_map_t.keys_missing_in m o
      ↔ coin_map_t.count m k = 1 ∧ coin_map_t.count o k = 0 := by
    intro m o k
    rw [coin_map_t.mem_keys_missing_in, coin_map_t.count_eq_one_iff_mem,
      coin_map_t.count_eq_zero_iff, coin_map_t.find_eq_none_iff]
  have hcond : ∀ (m o : coin_map_t) (k : uint256),
      (k ∈ coin_map_t.keys m ∧ k ∉ coin_map_t.keys o)
        ↔ (coin_map_t.count m k = 1 ∧ coin_map_t.count o k = 0) := by
    intro m o k
    rw [coin_map_t.count_eq_one_iff_mem, coin_map_t.count_eq_zero_iff,
      coin_map_t.find_eq_none_iff]
  refine ⟨by rw [view.operator_eq_eq], hmem _ _, hmem _ _, ?_, ?_⟩
  · rw [view.operator_eq_eq]
    simp
  · intro ha hb
    rw [view.operator_eq_eq]
    simp only []
    refine ⟨?_, ?_, ?_, ?_⟩
    · intro k
      rw [List.count_append,
        List.count_map_of_injective _ _ Diagnostic.other_is_missing_injective,
        coin_map_t.count_keys_missing_in _ _ ha]
      have h0 : List.count (Diagnostic.other_is_missing k)
          ((coin_map_t.keys_missing_in b.coin_map a.coin_map).map Diagnostic.I_am_missing)
            = 0 := by
        apply List.count_eq_zero_of_not_mem
        intro hm
        obtain ⟨k', _, hk'⟩ := List.mem_map.mp hm
        exact Diagnostic.noConfusion hk'
      rw [h0, Nat.add_zero]
      simp only [hcond]
    · intro k
      rw [List.count_append,
        List.count_map_of_injective _ _ Diagnostic.I_am_missing_injective,
        coin_map_t.count_keys_missing_in _ _ hb]
      have h0 : List.count (Diagnostic.I_am_missing k)
          ((coin_map_t.keys_missing_in a.coin_map b.coin_map).map Diagnostic.other_is_missing)
            = 0 := by
        apply List.count_eq_zero_of_not_mem
        intro hm
        obtain ⟨k', _, hk'⟩ := List.mem_map.mp hm
        exact Diagnostic.noConfusion hk'
      rw [h0, Nat.zero_add]
      simp only [hcond]
    · intro k
      apply List.count_eq_zero_of_not_mem
      intro hm
      rcases List.mem_append.mp hm with h | h
      · obtain ⟨k', _, hk'⟩ := List.mem_map.mp h
        exact Diagnostic.noConfusion hk'
      · obtain ⟨k', _, hk'⟩ := List.mem_map.mp h
        exact Diagnostic.noConfusion hk'
    · rw [List.length_append, List.length_map, List.length_map,
        coin_map_t.length_keys_missing_in _ _ ha, coin_map_t.length_keys_missing_in _ _ hb,
        symmDiff_def, Finset.sup_eq_union, Finset.card_union_of_disjoint disjoint_sdiff_sdiff]

/-- Witness of C18: a view with the keys 7 and 10 is compared with a view with the keys 7 and
12. -/
theorem C18_equality_diagnostics_witness :
    (view.operator_eq
        ⟨[(7, ⟨⟨7, [], [⟨false⟩], true⟩, [false], 1⟩),
          (10, ⟨⟨10, [], [⟨false⟩, ⟨false⟩], true⟩, [true, false], 1⟩)]⟩
        ⟨[(7, ⟨⟨7, [], [⟨false⟩], true⟩, [false], 1⟩),
          (12, ⟨⟨12, [], [⟨false⟩], true⟩, [false], 1⟩)]⟩).1.length
      = (symmDiff ([7, 10] : List Nat).toFinset ([7, 12] : List Nat).toFinset).card :=
  ((C18_equality_diagnostics
    ⟨[(7, ⟨⟨7, [], [⟨false⟩], true⟩, [false], 1⟩),
      (10, ⟨⟨10, [], [⟨false⟩, ⟨false⟩], true⟩, [true, false], 1⟩)]⟩
    ⟨[(7, ⟨⟨7, [], [⟨false⟩], true⟩, [false], 1⟩),
      (12, ⟨⟨12, [], [⟨false⟩], true⟩, [false], 1⟩)]⟩).2.2.2.2
    (by simp [coin_map_t.ordered, coin_map_t.keys])
    (by simp [coin_map_t.ordered, coin_map_t.keys])).2.2.2

/-- C16 (end-to-end scenario). `Tc` is a coinbase transaction whose outputs 0 and 1 are
spendable and whose other outputs, if any, are provably unspendable; `T1` spends output 0 of `Tc`
and has output 0 as its one spendable output; `T2` spends output 1 of `Tc` and output 0 of `T1`
and has no spendable output; `T1` and `Tc` have different identifiers. Starting from the empty
view the three inserts succeed: the first gives the view with the single entry `Tc`,
`spendable == 2`; the second gives the view with exactly the entries `Tc`, `spendable == 1`, and
`T1`, `spendable == 1`; the third gives the empty view. -/
theorem C16_end_to_end (Tc T1 T2 : tx) (uc u1 : List Bool)
    (hc_cb : Tc.IsCoinBase = true)
    (hc_out : Tc.vout.map (fun o => o.provably_unspendable) = false :: false :: uc)
    (huc : ∀ b ∈ uc, b = true)
    (h1_cb : T1.IsCoinBase = false) (h1_in : T1.vin = [⟨⟨Tc.hash, 0⟩⟩])
    (h1_out : T1.vout.map (fun o => o.provably_unspendable) = false :: u1)
    (hu1 : ∀ b ∈ u1, b = true)
    (h2_cb : T2.IsCoinBase = false) (h2_in : T2.vin = [⟨⟨Tc.hash, 1⟩⟩, ⟨⟨T1.hash, 0⟩⟩])
    (h2_out : ∀ o ∈ T2.vout, o.provably_unspendable = true)
    (hne : T1.hash ≠ Tc.hash) :
    ∃ v2 : view,
      view.insert ⟨[]⟩ Tc = .ok ⟨[(Tc.hash, ⟨Tc, false :: false :: uc, 2⟩)]⟩
        ∧ view.insert ⟨[(Tc.hash, ⟨Tc, false :: false :: uc, 2⟩)]⟩ T1 = .ok v2
        ∧ (∀ k, coin_map_t.find v2.coin_map k
              = if k = T1.hash then some ⟨T1, false :: u1, 1⟩
                else if k = Tc.hash then some ⟨Tc, true :: false :: uc, 1⟩ else none)
        ∧ v2.coin_map.length = 2
        ∧ v2.insert T2 = .ok ⟨[]⟩ := by
  have hcu : uc.count false = 0 := count_false_of_all_true uc huc
  have h1u : u1.count false = 0 := count_false_of_all_true u1 hu1
  have hcc : coin.construct Tc = ⟨Tc, false :: false :: uc, 2⟩ := by
    have := coin.construct_of_flags Tc _ hc_out (by simp [hcu])
    simpa [hcu] using this
  have hc1 : coin.construct T1 = ⟨T1, false :: u1, 1⟩ := by
    have := coin.construct_of_flags T1 _ h1_out (by simp [h1u])
    simpa [h1u] using this
  have hc2 : (coin.construct T2).spendable = 0 := coin.construct_all_unspendable T2 h2_out
  have hne2 : Tc.hash ≠ T1.hash := fun e => hne e.symm
  have hs0 : coin.spend_exhausts ⟨Tc, false :: false :: uc, 2⟩ 0
      = .ok (⟨Tc, true :: false :: uc, 1⟩, false) := by
    have h := coin.spend_exhausts_succ Tc (false :: false :: uc) 1 0 (by decide) (by simp)
      (by simp [vget])
    simpa using h
  have hs1 : coin.spend_exhausts ⟨Tc, true :: false :: uc, 1⟩ 1
      = .ok (⟨Tc, true :: true :: uc, 0⟩, true) := by
    have h := coin.spend_exhausts_succ Tc (true :: false :: uc) 0 1 (by decide) (by simp)
      (by simp [vget])
    simpa using h
  have hs2 : coin.spend_exhausts ⟨T1, false :: u1, 1⟩ 0
      = .ok (⟨T1, true :: u1, 0⟩, true) := by
    have h := coin.spend_exhausts_succ T1 (false :: u1) 0 0 (by decide) (by simp)
      (by simp [vget])
    simpa using h
  have hfirst : view.insert ⟨[]⟩ Tc = .ok ⟨[(Tc.hash, ⟨Tc, false :: false :: uc, 2⟩)]⟩ := by
    rw [view.insert_coinbase _ _ hc_cb,
      view.insert.add_outputs_assign [] Tc (by rw [hcc]; simp) (Or.inr rfl), hcc]
    rfl
  have hin1 : view.insert.spend_inputs T1.vin [(Tc.hash, ⟨Tc, false :: false :: uc, 2⟩)]
      = .ok [(Tc.hash, ⟨Tc, true :: false :: uc, 1⟩)] := by
    rw [h1_in, view.insert.spend_inputs_step _ _ _ ⟨Tc, false :: false :: uc, 2⟩
      ⟨Tc, true :: false :: uc, 1⟩ false (by simp [coin_map_t.find])
      (by rw [int_of_uint32_zero]; exact hs0)]
    simp [view.insert.spend_inputs, coin_map_t.assign]
  have hsecond : view.insert ⟨[(Tc.hash, ⟨Tc, false :: false :: uc, 2⟩)]⟩ T1
      = .ok ⟨coin_map_t.assign [(Tc.hash, ⟨Tc, true :: false :: uc, 1⟩)] T1.hash
          ⟨T1, false :: u1, 1⟩⟩ := by
    rw [view.insert_not_coinbase _ _ h1_cb, hin1]
    simp only []
    rw [view.insert.add_outputs_assign [(Tc.hash, ⟨Tc, true :: false :: uc, 1⟩)] T1
      (by rw [hc1]; simp) (Or.inr (by simp [coin_map_t.count, coin_map_t.find, hne2])), hc1]
  have hfind2 : ∀ k, coin_map_t.find
      (coin_map_t.assign [(Tc.hash, ⟨Tc, true :: false :: uc, 1⟩)] T1.hash
        ⟨T1, false :: u1, 1⟩) k
      = if k = T1.hash then some ⟨T1, false :: u1, 1⟩
        else if k = Tc.hash then some ⟨Tc, true :: false :: uc, 1⟩ else none := by
    intro k
    simp only [coin_map_t.find_assign, coin_map_t.find]
    by_cases h1 : k = T1.hash
    · simp [h1]
    · by_cases h2 : k = Tc.hash
      · simp [h2, hne2]
      · have h3 : ¬ (Tc.hash = k) := fun e => h2 e.symm
        simp [h1, h2, h3]
  refine ⟨_, hfirst, hsecond, hfind2, ?_, ?_⟩
  · simp only [coin_map_t.assign]
    by_cases hlt : T1.hash < Tc.hash
    · simp [hlt]
    · simp [hlt, hne]
  · rw [view.insert_not_coinbase _ _ h2_cb, h2_in]
    simp only []
    rw [view.insert.spend_inputs_step _ _ _ ⟨Tc, true :: false :: uc, 1⟩
      ⟨Tc, true :: true :: uc, 0⟩ true (by rw [hfind2]; simp [hne2])
      (by rw [int_of_uint32_one]; exact hs1)]
    simp only [if_true]
    rw [view.insert.spend_inputs_step _ _ _ ⟨T1, false :: u1, 1⟩
      ⟨T1, true :: u1, 0⟩ true
      (by simp [coin_map_t.find_erase, coin_map_t.find_assign, hfind2, hne])
      (by rw [int_of_uint32_zero]; exact hs2)]
    simp only [if_true, view.insert.spend_inputs]
    have hnil : coin_map_t.erase
        (coin_map_t.assign
          (coin_map_t.erase
            (coin_map_t.assign
              (coin_map_t.assign [(Tc.hash, ⟨Tc, true :: false :: uc, 1⟩)] T1.hash
                ⟨T1, false :: u1, 1⟩)
              Tc.hash ⟨Tc, true :: true :: uc, 0⟩)
            Tc.hash)
          T1.hash ⟨T1, true :: u1, 0⟩)
        T1.hash = [] := by
      apply coin_map_t.eq_nil_of_find
      intro k
      simp only [coin_map_t.find_erase, coin_map_t.find_assign, hfind2]
      by_cases h1 : k = T1.hash
      · simp [h1]
      · by_cases h2 : k = Tc.hash
        · simp [h1, h2]
        · simp [h1, h2]
    rw [hnil]
    exact view.insert.add_outputs_skip [] T2 hc2

/-- Witness of C16: the scenario with the identifiers 10, 7 and 8, where `T1` has a second,
provably unspendable output. -/
theorem C16_end_to_end_witness :
    ∃ v2 : view,
      view.insert ⟨[]⟩ ⟨10, [], [⟨false⟩, ⟨false⟩], true⟩
          = .ok ⟨[(10, ⟨⟨10, [], [⟨false⟩, ⟨false⟩], true⟩, [false, false], 2⟩)]⟩
        ∧ view.insert ⟨[(10, ⟨⟨10, [], [⟨false⟩, ⟨false⟩], true⟩, [false, false], 2⟩)]⟩
            ⟨7, [⟨⟨10, 0⟩⟩], [⟨false⟩, ⟨true⟩], false⟩ = .ok v2
        ∧ (∀ k, coin_map_t.find v2.coin_map k
              = if k = 7 then some ⟨⟨7, [⟨⟨10, 0⟩⟩], [⟨false⟩, ⟨true⟩], false⟩, [false, true], 1⟩
                else if k = 10 then
                  some ⟨⟨10, [], [⟨false⟩, ⟨false⟩], true⟩, [true, false], 1⟩
                else none)
        ∧ v2.coin_map.length = 2
        ∧ v2.insert ⟨8, [⟨⟨10, 1⟩⟩, ⟨⟨7, 0⟩⟩], [⟨true⟩], false⟩ = .ok ⟨[]⟩ :=
  C16_end_to_end ⟨10, [], [⟨false⟩, ⟨false⟩], true⟩
    ⟨7, [⟨⟨10, 0⟩⟩], [⟨false⟩, ⟨true⟩], false⟩
    ⟨8, [⟨⟨10, 1⟩⟩, ⟨⟨7, 0⟩⟩], [⟨true⟩], false⟩ [] [true]
    rfl rfl (by decide) rfl rfl rfl (by decide) rfl rfl (by decide) (by decide)

/-- C17 (format-version reset). Serializing a view appends the current `coin_view_version` as the
version field, followed by octets of the mapping that do not depend on it, and leaves
`coin_view_version` equal to 2. Deserializing from a stream whose version field reads as `w`
returns the mapping decoded from the octets after that field, whatever `w` and the previous
`coin_view_version` are, and leaves `coin_view_version` equal to 2 when it returns a view; when
the stream throws while the mapping is read, `coin_view_version` is still `w`, and when it throws
on the version field, it is what it was. -/
theorem C17_format_version_reset (P : Primitives) (v : view) :
    (∀ (g : Int) (s : Stream),
        view.Serialize P g s v
          = (s ++ P.write_int g ++ coin_map_t.Serialize P [] v.coin_map, 2))
      ∧ (∀ (g w : Int) (s rest : Stream), P.read_int s = some (w, rest) →
          (∀ m s', coin_map_t.Unserialize P rest = .ok (m, s') →
              view.Unserialize P g s = (2, .ok (⟨m⟩, s')))
            ∧ (∀ e, coin_map_t.Unserialize P rest = .error e →
                view.Unserialize P g s = (w, .error e)))
      ∧ (∀ (g : Int) (s : Stream), P.read_int s = none →
          view.Unserialize P g s = (g, .error .EndOfStream)) := by
  refine ⟨?_, ?_, ?_⟩
  · intro g s
    unfold view.Serialize
    simp only []
    rw [coin_map_t.Serialize_append]
  · intro g w s rest hr
    constructor
    · intro m s' hm
      unfold view.Unserialize
      rw [hr]
      simp only [hm]
    · intro e he
      unfold view.Unserialize
      rw [hr]
      simp only [he]
  · intro g s hr
    unfold view.Unserialize
    rw [hr]

/-- Witness of C17: a stream holding the version 5, an empty mapping and one more octet is read
while `coin_view_version` is 7. -/
theorem C17_format_version_reset_witness :
    view.Unserialize demoPrimitives 7 [5, 0, 0, 0, 0, 77] = (2, .ok (⟨[]⟩, [77])) :=
  ((C17_format_version_reset demoPrimitives ⟨[]⟩).2.1 7 5 [5, 0, 0, 0, 0, 77] [0, 77] rfl).1
    [] [77] rfl

end tiny
